import Mathlib

/-!
# Cachier: verification of the write-behind queue, lock manager and cache facade

A shallow embedding of the `datasapiens/cachier` Go library.  Go pointers
(`*T`) are modelled as `Option (Nat × V)`: `none` is the nil pointer, and
`some (id, v)` is a pointer with allocation identity `id` to a value `v`, so
that Go pointer equality becomes structural equality of the model.  The
write-behind queue (`write_queue.go`), the cache read path (`getNoLock`), the
compression engine footer (`compression/compression.go`), the two-tier
subcache (`cache_with_subcache.go`), the redirect follower (`GetIndirect`)
and the named lock manager (`utils` MutexMap) are each embedded as
executable definitions, with concurrency rendered as schedule-driven
interpreters over explicit machine states.
-/

namespace Cachier

/-- A Go pointer `*T`: `none` is nil, `some (id, v)` points at `v` with
allocation identity `id` (distinct allocations get distinct ids, so equality
of `GoPtr` is Go pointer equality). -/
abbrev GoPtr (V : Type) := Option (Nat × V)

/-- The tagged pending-operation variant held by the write-behind queue
(`queueOperationSet` / `queueOperationDelete` / `queueOperationDeletePredicate`
/ `queueOperationPurge` in `write_queue.go`). -/
inductive QueueOp (V : Type) where
  | set (key : String) (value : GoPtr V)
  | del (key : String)
  | delPred (pred : String → Bool)
  | purge

namespace QueueOp

/-- `GetType`: the operation tag constants (`QueueOperationSet = 0`, … ). -/
def getType : QueueOp V → Nat
  | .set _ _ => 0
  | .del _ => 1
  | .delPred _ => 2
  | .purge => 3

/-- `GetKey` is only implemented by the keyed operations (`queueOperationWithKey`). -/
def getKey? : QueueOp V → Option String
  | .set k _ => some k
  | .del k => some k
  | .delPred _ => none
  | .purge => none

/-- `IncludesKey`, per operation kind. -/
def includesKey : QueueOp V → String → Bool
  | .set k _, key => k == key
  | .del k, key => k == key
  | .delPred p, key => p key
  | .purge, _ => true

/-- `Includes`: whether the (new) operation wholly supersedes the (old)
queued operation.  Every kind first checks whether the old operation is a
keyed one, except `Purge` which includes everything. -/
def includes : QueueOp V → QueueOp V → Bool
  | .set k _, old =>
      match old.getKey? with
      | some k' => k == k'
      | none => false
  | .del k, old =>
      match old.getKey? with
      | some k' => k == k'
      | none => false
  | .delPred p, old =>
      match old.getKey? with
      | some k' => p k'
      | none => false
  | .purge, _ => true

end QueueOp

/-- The `writeQueue` state: the FIFO deque of pending operations (each
element tagged with its allocation id, standing for the Go pointer held in
the deque), the `Values` overlay map, the `CurrentlyWriting` mark and the
next free allocation id. -/
structure WQ (V : Type) where
  queue : List (Nat × QueueOp V)
  values : String → Option (GoPtr V)
  current : Option (Nat × QueueOp V)
  nextId : Nat

namespace WQ

/-- `newWriteQueue`: empty queue, empty overlay, no write in progress. -/
def empty : WQ V := ⟨[], fun _ => none, none, 0⟩

/-- `removeOverridden`: drop every queued operation that the new operation
includes (the Go index loop that removes while scanning is a filter). -/
def removeOverridden (op : QueueOp V) (l : List (Nat × QueueOp V)) :
    List (Nat × QueueOp V) :=
  l.filter (fun io => !(op.includes io.2))

/-- `Set`: remove overridden operations, push the new Set at the back, and
update the overlay entry. -/
def set (q : WQ V) (key : String) (value : GoPtr V) : WQ V :=
  let op : QueueOp V := .set key value
  { queue := removeOverridden op q.queue ++ [(q.nextId, op)]
    values := fun k => if k = key then some value else q.values k
    current := q.current
    nextId := q.nextId + 1 }

/-- `Delete`: remove overridden operations, push a Delete, erase the overlay
entry. -/
def del (q : WQ V) (key : String) : WQ V :=
  let op : QueueOp V := .del key
  { queue := removeOverridden op q.queue ++ [(q.nextId, op)]
    values := fun k => if k = key then none else q.values k
    current := q.current
    nextId := q.nextId + 1 }

/-- `DeletePredicate`: remove overridden operations, push a predicate
delete, and erase every matching overlay entry. -/
def delPred (q : WQ V) (pred : String → Bool) : WQ V :=
  let op : QueueOp V := .delPred pred
  { queue := removeOverridden op q.queue ++ [(q.nextId, op)]
    values := fun k => if pred k then none else q.values k
    current := q.current
    nextId := q.nextId + 1 }

/-- `Purge`: clear the queue, push a single Purge, reset the overlay. -/
def purge (q : WQ V) : WQ V :=
  { queue := [(q.nextId, .purge)]
    values := fun _ => none
    current := q.current
    nextId := q.nextId + 1 }

/-- `Get`: the overlay first (returning the stored pointer, nil included);
otherwise `(nil, true)` if any queued operation includes the key, and
`(nil, false)` if the queue has no record of the key. -/
def get (q : WQ V) (key : String) : GoPtr V × Bool :=
  match q.values key with
  | some p => (p, true)
  | none =>
      if q.queue.any (fun io => io.2.includesKey key) then (none, true)
      else (none, false)

/-- `StartWriting`: peek (not pop) the oldest operation and mark it current.
Calling it while a write is already marked current panics in Go; that branch
is modelled as a no-op returning nothing, and is never reached by the single
drain worker. -/
def startWriting (q : WQ V) : Option (Nat × QueueOp V) × WQ V :=
  if q.current.isSome then (none, q)
  else
    match q.queue.head? with
    | none => (none, q)
    | some f => (some f, { q with current := some f })

/-- `DoneWriting`: on success, pop the front only if it is still the very
operation marked current (id equality models the Go interface pointer
comparison `q.Queue.At(0) == q.CurrentlyWriting`); if that operation is a
Set whose pointer still sits in the overlay, clear the overlay entry.  On
failure, change nothing.  Always reset the current mark. -/
def doneWriting [DecidableEq V] (q : WQ V) (ok : Bool) : WQ V :=
  let q' :=
    if ok = true ∧ (q.queue.head?.map Prod.fst) ≠ none
        ∧ q.queue.head?.map Prod.fst = q.current.map Prod.fst then
      { q with
        queue := q.queue.tail
        values :=
          match q.current with
          | some (_, .set key p) =>
              fun k =>
                if k = key ∧ q.values key = some p then none else q.values k
          | _ => q.values }
    else q
  { q' with current := none }

end WQ

/-- Cache-facade read-path errors (`ErrNotFound`, `ErrWrongDataType`). -/
inductive CacheErr where
  | notFound
  | wrongType
  deriving DecidableEq

/-- `Cache.getNoLock`: consult the write queue first; a found nil pointer is
reported as NotFound; only on `found = false` fall through to the backend
(the abstract `engineGet` stands for `engine.Get` plus the type
adaptation). -/
def getNoLock (q : WQ V) (engineGet : String → Except CacheErr (GoPtr V))
    (key : String) : Except CacheErr (GoPtr V) :=
  match q.get key with
  | (p, true) => if p.isNone then .error .notFound else .ok p
  | (_, false) => engineGet key

/-! ## Draining a queue onto a backend

The net effect of applying queued operations, in order, to a backend store
(what the drain worker's successful `engine.Set`/`Delete`/… calls do). -/

/-- The backend effect of one queued operation. -/
def applyOp (b : String → Option (GoPtr V)) : QueueOp V → (String → Option (GoPtr V))
  | .set key v => fun k => if k = key then some v else b k
  | .del key => fun k => if k = key then none else b k
  | .delPred p => fun k => if p k then none else b k
  | .purge => fun _ => none

/-- Apply every queued operation, front to back, to a backend store. -/
def drainAll (q : WQ V) (b : String → Option (GoPtr V)) :
    String → Option (GoPtr V) :=
  q.queue.foldl (fun acc io => applyOp acc io.2) b

/-! ## Claim C2 — read-your-writes before any drain -/

/-- C2: `Set(k,v)` followed immediately by `Get(k)` (no drain in between)
returns `v`: the write lands in the overlay, the queue's `Get` serves the
overlay first, and the cache read path (`getNoLock`) returns the freshly
written value without consulting the backend. -/
theorem claim_C2_read_your_writes (q : WQ V)
    (engineGet : String → Except CacheErr (GoPtr V))
    (k : String) (i : Nat) (x : V) :
    ((q.set k (some (i, x))).get k = (some (i, x), true))
      ∧ getNoLock (q.set k (some (i, x))) engineGet k = .ok (some (i, x))
      ∧ (∀ p : GoPtr V, (q.set k p).get k = (p, true)) := by
  refine ⟨?_, ?_, ?_⟩
  · simp [WQ.get, WQ.set]
  · simp [getNoLock, WQ.get, WQ.set]
  · intro p
    simp [WQ.get, WQ.set]

/-! ## Claim C10 — a Set of nil is observationally a delete -/

/-- C10: `Set(k, nil)` stores a nil overlay entry; the queue's `Get(k)` then
returns `(nil, found = true)`, exactly what a queued Delete produces, and the
cache read path reports NotFound — so read-your-writes holds only for
non-nil values. -/
theorem claim_C10_nil_set_is_notfound (q : WQ V)
    (engineGet : String → Except CacheErr (GoPtr V)) (k : String) :
    ((q.set k none).values k = some none)
      ∧ ((q.set k none).get k = (none, true))
      ∧ getNoLock (q.set k none) engineGet k = .error .notFound
      ∧ ((q.del k).get k = (none, true))
      ∧ getNoLock (q.del k) engineGet k = .error .notFound := by
  refine ⟨?_, ?_, ?_, ?_, ?_⟩
  · simp [WQ.set]
  · simp [WQ.get, WQ.set]
  · simp [getNoLock, WQ.get, WQ.set]
  · simp [WQ.get, WQ.del, QueueOp.includesKey]
  · simp [getNoLock, WQ.get, WQ.del, QueueOp.includesKey]

/-! ## Claim C3 — coalescing on Set -/

/-- C3 counterexample: the claim says `Set(k,v)` removes *every* earlier
queued operation that touches `k`.  After `Purge()` then `Set("k",v)`, the
queued Purge — which touches every key, `IncludesKey("k") = true` — is still
in the queue ahead of the Set: `Set`'s `removeOverridden` only removes
*keyed* operations (Set/Delete) on `k`. -/
theorem claim_C3_counterexample :
    (((WQ.empty (V := Nat)).purge.set "k" (some (0, 7))).queue.map
        (fun io => io.2.getType) = [3, 0])
      ∧ QueueOp.includesKey (V := Nat) .purge "k" = true := by
  constructor
  · rfl
  · rfl

/-- C3 (amended): enqueuing `Set(k,v)` removes every earlier *keyed*
operation (Set or Delete) on `k` — operations without a single key
(DeletePredicate, Purge) are retained even when they touch `k` — then
appends a single Set and updates the overlay entry; consequently, after
`Set(k,v1)` then `Set(k,v2)` with no drain in between, draining onto any
backend leaves `v2` at `k`: `v1` is never applied. -/
theorem claim_C3_set_coalesces (q : WQ V) (k : String) (v v1 v2 : GoPtr V) :
    ((q.set k v).values k = some v)
      ∧ ((q.set k v).queue.getLast? = some (q.nextId, .set k v))
      ∧ (∀ io ∈ (q.set k v).queue.dropLast, io.2.getKey? ≠ some k)
      ∧ (∀ b : String → Option (GoPtr V),
          drainAll ((q.set k v1).set k v2) b k = some v2) := by
  refine ⟨?_, ?_, ?_, ?_⟩
  · simp [WQ.set]
  · simp [WQ.set]
  · intro io hio hkey
    simp only [WQ.set, List.dropLast_concat] at hio
    have hkeep := List.of_mem_filter hio
    simp only [QueueOp.includes, hkey, Bool.not_eq_true'] at hkeep
    simp [beq_iff_eq] at hkeep
  · intro b
    simp only [drainAll, WQ.set, List.foldl_append, List.foldl_cons,
      List.foldl_nil, applyOp]
    simp

/-! ## Claim C4 — the DoneWriting drain protocol -/

/-- C4 counterexample: the claim asserts the queue front is never removed by
anything other than drain completion.  Start a drain on the single queued
`Set("k",·)` (id 0), then — before `DoneWriting` is ever called — enqueue a
superseding `Set("k",·)`: `removeOverridden` removes the front (id 0 is gone
from the queue, only the new id 1 remains) while the drain is still marked
current on id 0. -/
theorem claim_C4_counterexample :
    (let q0 := (WQ.empty (V := Nat)).set "k" (some (0, 1))
     let s := q0.startWriting
     let q2 := s.2.set "k" (some (1, 2))
     (s.1.map Prod.fst = some 0)
       ∧ q2.current.map Prod.fst = some 0
       ∧ q2.queue.map Prod.fst = [1]) := by
  refine ⟨rfl, rfl, rfl⟩

/-- The behaviour of `DoneWriting` once an operation `(i, op)` is marked
current: success pops the front only when the front still carries id `i`,
clearing the overlay entry of a completed Set only when its very pointer is
still there; a front that changed, or a failure, leaves queue and overlay
untouched, and after a failure the next `StartWriting` hands out the same
front again. -/
def DoneWritingSpec [DecidableEq V] (q : WQ V) (i : Nat) (op : QueueOp V) : Prop :=
  ((q.doneWriting true).current = none ∧ (q.doneWriting false).current = none)
  ∧ (q.queue.head?.map Prod.fst = some i →
      (q.doneWriting true).queue = q.queue.tail
        ∧ (∀ key p, op = .set key p →
            ∀ k', (q.doneWriting true).values k' =
              if k' = key ∧ q.values key = some p then none else q.values k')
        ∧ (op.getType ≠ 0 → ∀ k', (q.doneWriting true).values k' = q.values k'))
  ∧ (q.queue.head?.map Prod.fst ≠ some i →
      (q.doneWriting true).queue = q.queue
        ∧ ∀ k', (q.doneWriting true).values k' = q.values k')
  ∧ ((q.doneWriting false).queue = q.queue
      ∧ (∀ k', (q.doneWriting false).values k' = q.values k')
      ∧ ((q.doneWriting false).startWriting).1 = q.queue.head?)

/-- C4 (amended): `DoneWriting(true)` pops the front iff it is still the
identical operation marked current, clearing a completed Set's overlay entry
only when not since overwritten; `DoneWriting(false)` removes nothing and
leaves the overlay untouched, so the operation is retried by the next
`StartWriting`.  The front *can*, however, also be removed by a superseding
enqueue or a Purge — drain completion is not the only remover. -/
theorem claim_C4_doneWriting [DecidableEq V] (q : WQ V) (i : Nat)
    (op : QueueOp V) (h : q.current = some (i, op)) :
    DoneWritingSpec q i op := by
  refine ⟨⟨rfl, rfl⟩, ?_, ?_, ?_, ?_, ?_⟩
  · intro hfront
    have hcond : (true = true ∧ (q.queue.head?.map Prod.fst) ≠ none
        ∧ q.queue.head?.map Prod.fst = q.current.map Prod.fst) := by
      refine ⟨rfl, by simp [hfront], by simp [hfront, h]⟩
    refine ⟨?_, ?_, ?_⟩
    · simp [WQ.doneWriting, if_pos hcond]
    · intro key p hop k'
      subst hop
      simp [WQ.doneWriting, if_pos hcond, h]
    · intro hne k'
      cases op with
      | set key p => simp [QueueOp.getType] at hne
      | del key => simp [WQ.doneWriting, if_pos hcond, h]
      | delPred p => simp [WQ.doneWriting, if_pos hcond, h]
      | purge => simp [WQ.doneWriting, if_pos hcond, h]
  · intro hfront
    have hcond : ¬(true = true ∧ (q.queue.head?.map Prod.fst) ≠ none
        ∧ q.queue.head?.map Prod.fst = q.current.map Prod.fst) := by
      rintro ⟨-, -, heq⟩
      rw [h] at heq
      exact hfront heq
    exact ⟨by simp [WQ.doneWriting, if_neg hcond], fun k' => by
      simp [WQ.doneWriting, if_neg hcond]⟩
  · have hcond : ¬(false = true ∧ (q.queue.head?.map Prod.fst) ≠ none
        ∧ q.queue.head?.map Prod.fst = q.current.map Prod.fst) := by
      rintro ⟨hfalse, -⟩
      exact Bool.false_ne_true hfalse
    simp [WQ.doneWriting, if_neg hcond]
  · intro k'
    have hcond : ¬(false = true ∧ (q.queue.head?.map Prod.fst) ≠ none
        ∧ q.queue.head?.map Prod.fst = q.current.map Prod.fst) := by
      rintro ⟨hfalse, -⟩
      exact Bool.false_ne_true hfalse
    simp [WQ.doneWriting, if_neg hcond]
  · have hcond : ¬(false = true ∧ (q.queue.head?.map Prod.fst) ≠ none
        ∧ q.queue.head?.map Prod.fst = q.current.map Prod.fst) := by
      rintro ⟨hfalse, -⟩
      exact Bool.false_ne_true hfalse
    simp only [WQ.doneWriting, if_neg hcond]
    cases hq : q.queue.head? with
    | none => simp [WQ.startWriting, hq]
    | some f => simp [WQ.startWriting, hq]

/-- C4 witness: the amended `DoneWriting` behaviour, instantiated on the
concrete queue holding one `Set("a",·)` marked current by `StartWriting`. -/
theorem claim_C4_witness :
    DoneWritingSpec (((WQ.empty (V := Nat)).set "a" (some (3, 5))).startWriting).2
      0 (.set "a" (some (3, 5))) :=
  claim_C4_doneWriting
    (((WQ.empty (V := Nat)).set "a" (some (3, 5))).startWriting).2
    0 (.set "a" (some (3, 5))) rfl

/-! ## Claim C5 — the three outcomes of the queue's Get

The tri-state reading of `writeQueue.Get` relies on an invariant of all
states reachable through the queue API: a queued Set always has its value in
the overlay (so the `(nil, true)` outcome can only come from a Delete, a
matching DeletePredicate, or a Purge), and at most one keyed operation per
key sits in the queue. -/

/-- Two queue elements never carry the same key. -/
def keyedApart (a b : Nat × QueueOp V) : Prop :=
  ∀ k, a.2.getKey? = some k → b.2.getKey? ≠ some k

/-- States of the write queue reachable through its API from `newWriteQueue`. -/
inductive Reachable [DecidableEq V] : WQ V → Prop where
  | empty : Reachable .empty
  | set {q} (key : String) (value : GoPtr V) : Reachable q → Reachable (q.set key value)
  | del {q} (key : String) : Reachable q → Reachable (q.del key)
  | delPred {q} (pred : String → Bool) : Reachable q → Reachable (q.delPred pred)
  | purge {q} : Reachable q → Reachable q.purge
  | start {q} : Reachable q → Reachable q.startWriting.2
  | done {q} (ok : Bool) : Reachable q → Reachable (q.doneWriting ok)

/-- The structural invariant of reachable write-queue states. -/
structure WQInv (q : WQ V) : Prop where
  setValues : ∀ i k p, (i, QueueOp.set k p) ∈ q.queue → q.values k = some p
  keyedOnce : q.queue.Pairwise keyedApart
  currentOp : ∀ c, q.current = some c → ∀ io ∈ q.queue, io.1 = c.1 → io.2 = c.2
  currentLt : ∀ c, q.current = some c → c.1 < q.nextId
  idsLt : ∀ io ∈ q.queue, io.1 < q.nextId
  idsNodup : (q.queue.map Prod.fst).Nodup

theorem wqInv_empty : WQInv (WQ.empty (V := V)) := by
  constructor <;> simp [WQ.empty, keyedApart]

/-- Enqueueing a keyed or predicate operation preserves the invariant: the
shared part of `WQ.set`, `WQ.del`, `WQ.delPred`. -/
theorem wqInv_enqueue (q : WQ V) (op : QueueOp V)
    (values' : String → Option (GoPtr V))
    (hv : ∀ i k p, (i, QueueOp.set k p) ∈ WQ.removeOverridden op q.queue →
      values' k = q.values k)
    (hnew : ∀ k p, op = QueueOp.set k p → values' k = some p)
    (hcross : ∀ io ∈ WQ.removeOverridden op q.queue, keyedApart io (q.nextId, op))
    (hinv : WQInv q) :
    WQInv { queue := WQ.removeOverridden op q.queue ++ [(q.nextId, op)]
            values := values'
            current := q.current
            nextId := q.nextId + 1 : WQ V } := by
  have hsub : (WQ.removeOverridden op q.queue).Sublist q.queue :=
    List.filter_sublist q.queue
  constructor
  · intro i k p hmem
    dsimp only at hmem ⊢
    rcases List.mem_append.mp hmem with hmem | hmem
    · rw [hv i k p hmem]
      exact hinv.setValues i k p (hsub.mem hmem)
    · have h := List.mem_singleton.mp hmem
      injection h with h1 h2
      exact hnew k p h2.symm
  · refine List.pairwise_append.mpr ⟨hinv.keyedOnce.sublist hsub, ?_, ?_⟩
    · simp
    · intro a ha b hb
      rcases List.mem_singleton.mp hb with rfl
      exact hcross a ha
  · intro c hc io hio hfst
    dsimp only at hc hio hfst
    rcases List.mem_append.mp hio with hio | hio
    · exact hinv.currentOp c hc io (hsub.mem hio) hfst
    · rcases List.mem_singleton.mp hio with rfl
      have := hinv.currentLt c hc
      simp only at hfst
      omega
  · intro c hc
    dsimp only at hc ⊢
    have := hinv.currentLt c hc
    omega
  · intro io hio
    dsimp only at hio ⊢
    rcases List.mem_append.mp hio with hio | hio
    · have := hinv.idsLt io (hsub.mem hio)
      omega
    · rcases List.mem_singleton.mp hio with rfl
      omega
  · dsimp only
    rw [List.map_append]
    refine List.Nodup.append (hinv.idsNodup.sublist (hsub.map Prod.fst)) (by simp) ?_
    intro a ha hb
    simp only [List.map_cons, List.map_nil, List.mem_singleton] at hb
    subst hb
    rcases List.mem_map.mp ha with ⟨io, hio, hio'⟩
    have := hinv.idsLt io (hsub.mem hio)
    omega

theorem wqInv_set (q : WQ V) (key : String) (value : GoPtr V) (hinv : WQInv q) :
    WQInv (q.set key value) := by
  refine wqInv_enqueue q (.set key value) _ ?_ ?_ ?_ hinv
  · intro i k p hmem
    have hkeep := List.of_mem_filter hmem
    simp only [QueueOp.includes, QueueOp.getKey?, Bool.not_eq_true'] at hkeep
    have hne : key ≠ k := by simpa [beq_iff_eq] using hkeep
    simp [Ne.symm hne]
  · intro k p h
    cases h
    simp
  · intro io hio k hk
    have hkeep := List.of_mem_filter hio
    simp only [QueueOp.includes, hk, Bool.not_eq_true'] at hkeep
    have : ¬ key = k := by simpa [beq_iff_eq] using hkeep
    simp [QueueOp.getKey?, this]

theorem wqInv_del (q : WQ V) (key : String) (hinv : WQInv q) :
    WQInv (q.del key) := by
  refine wqInv_enqueue q (.del key) _ ?_ ?_ ?_ hinv
  · intro i k p hmem
    have hkeep := List.of_mem_filter hmem
    simp only [QueueOp.includes, QueueOp.getKey?, Bool.not_eq_true'] at hkeep
    have hne : key ≠ k := by simpa [beq_iff_eq] using hkeep
    simp [Ne.symm hne]
  · intro k p h
    cases h
  · intro io hio k hk
    have hkeep := List.of_mem_filter hio
    simp only [QueueOp.includes, hk, Bool.not_eq_true'] at hkeep
    have : ¬ key = k := by simpa [beq_iff_eq] using hkeep
    simp [QueueOp.getKey?, this]

theorem wqInv_delPred (q : WQ V) (pred : String → Bool) (hinv : WQInv q) :
    WQInv (q.delPred pred) := by
  refine wqInv_enqueue q (.delPred pred) _ ?_ ?_ ?_ hinv
  · intro i k p hmem
    have hkeep := List.of_mem_filter hmem
    simp only [QueueOp.includes, QueueOp.getKey?, Bool.not_eq_true'] at hkeep
    simp [hkeep]
  · intro k p h
    cases h
  · intro io hio k hk
    simp [QueueOp.getKey?]

theorem wqInv_purge (q : WQ V) (hinv : WQInv q) : WQInv q.purge := by
  constructor
  · intro i k p hmem
    simp [WQ.purge] at hmem
  · simp [WQ.purge]
  · intro c hc io hio hfst
    simp only [WQ.purge, List.mem_singleton] at hio
    subst hio
    have := hinv.currentLt c hc
    simp only [WQ.purge] at hc hfst
    omega
  · intro c hc
    have := hinv.currentLt c (by simpa [WQ.purge] using hc)
    simp only [WQ.purge]
    omega
  · intro io hio
    simp only [WQ.purge, List.mem_singleton] at hio
    subst hio
    simp [WQ.purge]
  · simp [WQ.purge]

theorem wqInv_start (q : WQ V) (hinv : WQInv q) : WQInv q.startWriting.2 := by
  unfold WQ.startWriting
  by_cases hc : q.current.isSome
  · simpa [hc] using hinv
  · simp only [hc, Bool.false_eq_true, if_false]
    cases hq : q.queue.head? with
    | none => exact hinv
    | some f =>
      have hfmem : f ∈ q.queue := List.mem_of_mem_head? hq
      constructor
      · exact hinv.setValues
      · exact hinv.keyedOnce
      · intro c hcc io hio hfst
        simp only [Option.some.injEq] at hcc
        subst hcc
        have := List.inj_on_of_nodup_map hinv.idsNodup hio hfmem hfst
        rw [this]
      · intro c hcc
        simp only [Option.some.injEq] at hcc
        subst hcc
        exact hinv.idsLt f hfmem
      · exact hinv.idsLt
      · exact hinv.idsNodup

theorem wqInv_done [DecidableEq V] (q : WQ V) (ok : Bool) (hinv : WQInv q) :
    WQInv (q.doneWriting ok) := by
  unfold WQ.doneWriting
  by_cases hcond : (ok = true ∧ (q.queue.head?.map Prod.fst) ≠ none
      ∧ q.queue.head?.map Prod.fst = q.current.map Prod.fst)
  · rcases hcond with ⟨hok, hne, heq⟩
    rw [if_pos ⟨hok, hne, heq⟩]
    cases hqq : q.queue with
    | nil => simp [hqq] at hne
    | cons f tl =>
      rw [hqq] at hne heq
      simp only [List.head?_cons, Option.map_some'] at hne heq
      cases hcur : q.current with
      | none => rw [hcur] at heq; simp at heq
      | some c =>
        rw [hcur] at heq
        simp only [Option.map_some', Option.some.injEq] at heq
        have hfc : f.2 = c.2 := hinv.currentOp c hcur f (by rw [hqq]; exact List.mem_cons_self f tl) heq
        have htl : ∀ io ∈ tl, io ∈ q.queue := by
          intro io hio; rw [hqq]; exact List.mem_cons_of_mem f hio
        have hpw : ∀ io ∈ tl, keyedApart f io := by
          have := hinv.keyedOnce
          rw [hqq] at this
          exact (List.pairwise_cons.mp this).1
        constructor
        · intro i k p hmem
          dsimp only at hmem ⊢
          simp only [List.tail_cons] at hmem
          have hval : q.values k = some p := hinv.setValues i k p (htl _ hmem)
          obtain ⟨c1, c2⟩ := c
          cases c2 with
          | set ckey cp =>
            have hkne : ¬ k = ckey := by
              intro hkk
              subst hkk
              have hf2 : f.2.getKey? = some k := by
                rw [hfc]
                rfl
              exact hpw (i, QueueOp.set k p) hmem k hf2 rfl
            simp [hkne, hval]
          | del ckey => simpa using hval
          | delPred cp => simpa using hval
          | purge => simpa using hval
        · have := hinv.keyedOnce
          rw [hqq] at this
          simpa [hqq] using (List.pairwise_cons.mp this).2
        · intro c' hc'
          simp at hc'
        · intro c' hc'
          simp at hc'
        · intro io hio
          simp only [hqq, List.tail_cons] at hio
          exact hinv.idsLt io (htl io hio)
        · have := hinv.idsNodup
          rw [hqq] at this
          simpa [hqq] using (List.nodup_cons.mp this).2
  · rw [if_neg hcond]
    exact ⟨hinv.setValues, hinv.keyedOnce, by intro c hc; simp at hc,
      by intro c hc; simp at hc, hinv.idsLt, hinv.idsNodup⟩

/-- Every state reachable through the queue API satisfies the invariant. -/
theorem reachable_wqInv [DecidableEq V] {q : WQ V} (h : Reachable q) : WQInv q := by
  induction h with
  | empty => exact wqInv_empty
  | set key value _ ih => exact wqInv_set _ key value ih
  | del key _ ih => exact wqInv_del _ key ih
  | delPred pred _ ih => exact wqInv_delPred _ pred ih
  | purge _ ih => exact wqInv_purge _ ih
  | start _ ih => exact wqInv_start _ ih
  | done ok _ ih => exact wqInv_done _ ok ih

/-- The tri-state contract of the queue's `Get`, plus the
DeletePredicate-then-Get consequence. -/
def GetSpec [DecidableEq V] (q : WQ V)
    (engineGet : String → Except CacheErr (GoPtr V))
    (k : String) (pr : String → Bool) : Prop :=
  (∀ p, q.values k = some p → q.get k = (p, true))
  ∧ (q.values k = none → (∃ io ∈ q.queue, io.2.includesKey k = true) →
      q.get k = (none, true))
  ∧ (q.values k = none → (∀ io ∈ q.queue, io.2.includesKey k = false) →
      q.get k = (none, false))
  ∧ (∀ io ∈ q.queue, io.2.includesKey k = true → q.values k = none →
      io.2.getType ≠ 0)
  ∧ (pr k = true →
      (q.delPred pr).get k = (none, true)
        ∧ getNoLock (q.delPred pr) engineGet k = .error .notFound)

/-- C5: on every reachable queue state, `Get(k)` has exactly three outcomes —
the overlay value with `found = true`; `(nil, true)` when a queued operation
marks `k` logically absent, which (given the invariant) is necessarily a
Delete, a matching DeletePredicate or a Purge, never a Set; and
`(nil, false)` only when the queue has no record of `k`.  After
`DeletePredicate(p)`, `Get(k)` reports NotFound for every `k` matching `p`,
even if `k` had an undrained pending Set. -/
theorem claim_C5_get_tristate [DecidableEq V] (q : WQ V)
    (engineGet : String → Except CacheErr (GoPtr V))
    (k : String) (pr : String → Bool) (h : Reachable q) :
    GetSpec q engineGet k pr := by
  have hinv := reachable_wqInv h
  refine ⟨?_, ?_, ?_, ?_, ?_⟩
  · intro p hp
    simp [WQ.get, hp]
  · intro hnone hex
    have : q.queue.any (fun io => io.2.includesKey k) = true := by
      rcases hex with ⟨io, hio, hik⟩
      exact List.any_eq_true.mpr ⟨io, hio, hik⟩
    simp [WQ.get, hnone, this]
  · intro hnone hall
    have : q.queue.any (fun io => io.2.includesKey k) = false := by
      rw [List.any_eq_false]
      intro io hio
      simp [hall io hio]
    simp [WQ.get, hnone, this]
  · intro io hio hik hnone htype
    cases io with
    | mk i op =>
      cases op with
      | set key p =>
        simp only [QueueOp.includesKey, beq_iff_eq] at hik
        subst hik
        have := hinv.setValues i key p hio
        rw [this] at hnone
        cases hnone
      | del key => simp [QueueOp.getType] at htype
      | delPred p => simp [QueueOp.getType] at htype
      | purge => simp [QueueOp.getType] at htype
  · intro hpk
    constructor
    · simp [WQ.get, WQ.delPred, hpk, QueueOp.includesKey]
    · simp [getNoLock, WQ.get, WQ.delPred, hpk, QueueOp.includesKey]

/-- C5 witness: the tri-state contract on the concrete reachable state
`newWriteQueue` followed by `Delete("k")`. -/
theorem claim_C5_witness :
    GetSpec ((WQ.empty (V := Nat)).del "k") (fun _ => .error .notFound)
      "k" (fun s => s == "k") :=
  claim_C5_get_tristate ((WQ.empty (V := Nat)).del "k")
    (fun _ => .error .notFound) "k" (fun s => s == "k")
    (Reachable.del "k" Reachable.empty)

/-! ## Claim C9 — the compression engine's footer round trip

`compression/compression.go`: `Engine.Compress` appends a self-describing
footer (one provider-ID byte for the no-compression provider, otherwise
8-byte little-endian original length plus one provider-ID byte) and
`Engine.Decompress` strips it to select the provider and the destination
size.  Bytes are modelled as naturals; the external codecs (zstd/lz4/s2) are
abstract providers carrying their round-trip contract, while the
no-compression provider is the identity, as in `provider.go`. -/

namespace Compression

/-- A registered compression provider: `Compress`, `Decompress(src, dstSize)`
and `GetID`.  `none` models a returned error. -/
structure Provider where
  id : Nat
  compress : List Nat → Option (List Nat)
  decompress : List Nat → Nat → Option (List Nat)

/-- `NoCompressionService` (id 0): compress and decompress both return the
source unchanged. -/
def noCompressionService : Provider :=
  { id := 0
    compress := fun src => some src
    decompress := fun src _ => some src }

/-- The compression `Engine`: the no-compression id, the default id, the
provider registry and the minimum-input-size threshold. -/
structure Engine where
  noCompressionID : Nat
  defaultCompressionID : Nat
  providers : Nat → Option Provider
  minInputSize : Nat

/-- `footerSizeInByte = providerIDLengthInByte + originalSizeLengthInByte`. -/
def footerSizeInByte : Nat := 9

/-- 8-byte little-endian encoding of a length (`binary.Write` with
`binary.LittleEndian` of a `uint64`). -/
def le64 (n : Nat) : List Nat :=
  [n % 256, n / 256 % 256, n / 256 ^ 2 % 256, n / 256 ^ 3 % 256,
   n / 256 ^ 4 % 256, n / 256 ^ 5 % 256, n / 256 ^ 6 % 256, n / 256 ^ 7 % 256]

/-- Little-endian decoding (`byteOrder.Uint64`). -/
def le64decode (l : List Nat) : Nat :=
  l.foldr (fun b acc => b + 256 * acc) 0

/-- `Engine.addFooter`: a single provider-ID byte for the no-compression
provider, otherwise the 8-byte little-endian original length followed by the
provider-ID byte. -/
def Engine.addFooter (ce : Engine) (compressedInput : List Nat)
    (providerID : Nat) (inputLength : Nat) : List Nat :=
  if providerID = ce.noCompressionID then compressedInput ++ [providerID]
  else compressedInput ++ le64 inputLength ++ [providerID]

/-- The shared tail of `Compress`/`CompressWithProvider`: compress with the
selected provider (a missing provider — a nil Go interface — is `none`) and
append the footer. -/
def Engine.compressWith (ce : Engine) (sel : Option Provider)
    (input : List Nat) : Option (List Nat) :=
  match sel with
  | none => none
  | some provider =>
      match provider.compress input with
      | none => none
      | some output => some (ce.addFooter output provider.id input.length)

/-- `Engine.Compress`: pick the no-compression provider for small inputs,
the default provider otherwise; compress; append the footer. -/
def Engine.compress (ce : Engine) (input : List Nat) : Option (List Nat) :=
  ce.compressWith
    (if input.length ≤ ce.minInputSize then ce.providers ce.noCompressionID
     else ce.providers ce.defaultCompressionID) input

/-- `Engine.CompressWithProvider`: like `Compress` but with a caller-chosen
provider for large inputs (`ErrProviderNotFound` when unregistered). -/
def Engine.compressWithProvider (ce : Engine) (input : List Nat)
    (providerID : Nat) : Option (List Nat) :=
  ce.compressWith
    (if input.length ≤ ce.minInputSize then ce.providers ce.noCompressionID
     else ce.providers providerID) input

/-- `Engine.extractFooter`: read the trailing provider-ID byte (indexing
`input[len-1]` panics on empty input, modelled as `none`); for the
no-compression provider strip one byte and report the stripped length as
destination size; otherwise require at least 9 bytes, strip them, and decode
the 8-byte little-endian destination size. -/
def Engine.extractFooter (ce : Engine) (input : List Nat) :
    Option (List Nat × Nat × Nat) :=
  match input.getLast? with
  | none => none
  | some providerID =>
      if providerID = ce.noCompressionID then
        some (input.dropLast, providerID, input.length - 1)
      else if input.length < footerSizeInByte then none
      else
        some (input.take (input.length - footerSizeInByte), providerID,
          le64decode ((input.drop (input.length - footerSizeInByte)).take 8))

/-- `Engine.Decompress`: extract the footer, look the provider up by the
footer's ID (`ErrProviderNotFound` when absent), and decompress with the
recorded destination size. -/
def Engine.decompress (ce : Engine) (input : List Nat) : Option (List Nat) :=
  match ce.extractFooter input with
  | none => none
  | some (src, providerID, dstSize) =>
      match ce.providers providerID with
      | none => none
      | some provider => provider.decompress src dstSize

/-- Engine wellformedness: the no-compression slot holds the identity
provider under its own id, and every registered provider reports the id it
is registered under (`AddProvider` keys the map by `GetID`). -/
structure Engine.WF (ce : Engine) : Prop where
  no_comp : ce.providers ce.noCompressionID = some { noCompressionService with id := ce.noCompressionID }
  id_consistent : ∀ i pr, ce.providers i = some pr → pr.id = i

/-- The round-trip contract of an external codec: decompressing its output
at the original length recovers the input. -/
def RoundTrips (pr : Provider) : Prop :=
  ∀ p out, pr.compress p = some out → pr.decompress out p.length = some p

theorem le64_length (n : Nat) : (le64 n).length = 8 := rfl

theorem le64decode_le64 (n : Nat) (h : n < 2 ^ 64) : le64decode (le64 n) = n := by
  simp only [le64, le64decode, List.foldr_cons, List.foldr_nil]
  omega

/-- Decompressing any payload wearing the 1-byte no-compression footer
returns the payload. -/
theorem decompress_footer_nc (ce : Engine) (hwf : ce.WF) (out : List Nat) :
    ce.decompress (out ++ [ce.noCompressionID]) = some out := by
  have hlast : (out ++ [ce.noCompressionID]).getLast? = some ce.noCompressionID :=
    List.getLast?_concat _
  simp only [Engine.decompress, Engine.extractFooter, hlast,
    eq_self_iff_true, if_true, List.dropLast_concat]
  rw [hwf.no_comp]
  simp [noCompressionService]

/-- Decompressing any payload wearing the 9-byte footer of a registered
provider hands the provider the de-footered payload and the recorded
length. -/
theorem decompress_footer_sized (ce : Engine) (pid : Nat)
    (hne : pid ≠ ce.noCompressionID) (pr : Provider)
    (hpr : ce.providers pid = some pr) (out : List Nat) (n : Nat)
    (hn : n < 2 ^ 64) :
    ce.decompress (out ++ le64 n ++ [pid]) = pr.decompress out n := by
  have hlast : (out ++ le64 n ++ [pid]).getLast? = some pid :=
    List.getLast?_concat _
  have hlen : (out ++ le64 n ++ [pid]).length = out.length + 9 := by
    simp [le64_length]
  have hassoc : out ++ le64 n ++ [pid] = out ++ (le64 n ++ [pid]) :=
    List.append_assoc _ _ _
  have htake : (out ++ le64 n ++ [pid]).take
      ((out ++ le64 n ++ [pid]).length - footerSizeInByte) = out := by
    rw [hlen, footerSizeInByte, Nat.add_sub_cancel, hassoc]
    exact List.take_left _ _
  have hdrop : ((out ++ le64 n ++ [pid]).drop
      ((out ++ le64 n ++ [pid]).length - footerSizeInByte)).take 8 = le64 n := by
    rw [hlen, footerSizeInByte, Nat.add_sub_cancel, hassoc, List.drop_left,
      show (8 : Nat) = (le64 n).length from (le64_length n).symm]
    exact List.take_left _ _
  have hbig : ¬ (out ++ le64 n ++ [pid]).length < footerSizeInByte := by
    rw [hlen]; simp [footerSizeInByte]
  simp only [Engine.decompress, Engine.extractFooter, hlast, if_neg hne,
    if_neg hbig, htake, hdrop, le64decode_le64 n hn, hpr]

/-- C9: for every payload (of length < 2⁶⁴) the engine's footer is correctly
added by `Compress` and stripped by `Decompress`, so that whenever the
selected provider honours its round-trip contract (the no-compression
provider does by construction), `Decompress (Compress p) = p`; likewise for
any registered provider used through `CompressWithProvider`. -/
theorem claim_C9_roundtrip (ce : Engine) (hwf : ce.WF) (p : List Nat)
    (hlen : p.length < 2 ^ 64)
    (hdflt : ∀ pr, ce.providers ce.defaultCompressionID = some pr → RoundTrips pr) :
    (∀ out, ce.compress p = some out → ce.decompress out = some p)
      ∧ (∀ i pr, ce.providers i = some pr → RoundTrips pr →
          ∀ out, ce.compressWithProvider p i = some out →
            ce.decompress out = some p) := by
  have main : ∀ sel : Option Provider,
      (∀ pr, sel = some pr → ce.providers pr.id = some pr ∧ RoundTrips pr) →
      ∀ out, ce.compressWith sel p = some out →
        ce.decompress out = some p := by
    intro sel hsel out hout
    cases sel with
    | none => simp [Engine.compressWith] at hout
    | some pr =>
      obtain ⟨hreg, hrt⟩ := hsel pr rfl
      simp only [Engine.compressWith] at hout
      cases hc : pr.compress p with
      | none => rw [hc] at hout; simp at hout
      | some compressed =>
        rw [hc] at hout
        simp only [Option.some.injEq] at hout
        subst hout
        by_cases hid : pr.id = ce.noCompressionID
        · have hreg' := hreg
          rw [hid, hwf.no_comp] at hreg'
          injection hreg' with hprnc
          have hcid : p = compressed := by
            rw [← hprnc] at hc
            simpa [noCompressionService] using hc
          subst hcid
          simp only [Engine.addFooter, if_pos hid, hid]
          exact decompress_footer_nc ce hwf p
        · simp only [Engine.addFooter, if_neg hid]
          rw [decompress_footer_sized ce pr.id hid pr hreg compressed p.length hlen]
          exact hrt p compressed hc
  constructor
  · intro out hout
    simp only [Engine.compress] at hout
    refine main _ ?_ out hout
    intro pr hpr
    by_cases hsmall : p.length ≤ ce.minInputSize
    · rw [if_pos hsmall] at hpr
      have hid := hwf.id_consistent _ _ hpr
      refine ⟨by rw [hid]; exact hpr, ?_⟩
      have h2 := hwf.no_comp
      rw [hpr] at h2
      injection h2 with h3
      subst h3
      intro x y hxy
      simpa [noCompressionService] using hxy.symm
    · rw [if_neg hsmall] at hpr
      have hid := hwf.id_consistent _ _ hpr
      exact ⟨by rw [hid]; exact hpr, hdflt pr hpr⟩
  · intro i pr hpr hrt out hout
    simp only [Engine.compressWithProvider] at hout
    refine main _ ?_ out hout
    intro pr' hpr'
    by_cases hsmall : p.length ≤ ce.minInputSize
    · rw [if_pos hsmall] at hpr'
      have hid := hwf.id_consistent _ _ hpr'
      refine ⟨by rw [hid]; exact hpr', ?_⟩
      have h2 := hwf.no_comp
      rw [hpr'] at h2
      injection h2 with h3
      subst h3
      intro x y hxy
      simpa [noCompressionService] using hxy.symm
    · rw [if_neg hsmall] at hpr'
      have hid := hwf.id_consistent _ _ hpr'
      rw [hpr] at hpr'
      injection hpr' with h3
      subst h3
      exact ⟨by rw [hid]; exact hpr, hrt⟩

/-- A stand-in external codec used by the witness: reversal, which trivially
honours the round-trip contract. -/
def reverseProvider : Provider :=
  { id := 1
    compress := fun src => some src.reverse
    decompress := fun src _ => some src.reverse }

/-- The witness engine: no-compression at id 0, the reversal codec as
default at id 1, threshold 2 (so the 3-byte witness payload takes the
sized-footer path). -/
def sampleEngine : Engine :=
  { noCompressionID := 0
    defaultCompressionID := 1
    providers := fun i =>
      match i with
      | 0 => some { noCompressionService with id := 0 }
      | 1 => some reverseProvider
      | _ => none
    minInputSize := 2 }

/-- C9 witness: the engine round trip instantiated on a concrete engine and
payload. -/
theorem claim_C9_witness :
    (∀ out, sampleEngine.compress [10, 20, 30] = some out →
      sampleEngine.decompress out = some [10, 20, 30])
      ∧ (∀ i pr, sampleEngine.providers i = some pr → RoundTrips pr →
          ∀ out, sampleEngine.compressWithProvider [10, 20, 30] i = some out →
            sampleEngine.decompress out = some [10, 20, 30]) :=
  claim_C9_roundtrip sampleEngine
    ⟨rfl, by
      intro i pr hpr
      cases i with
      | zero =>
          dsimp only [sampleEngine] at hpr
          injection hpr with h3
          rw [← h3]
      | succ n =>
          cases n with
          | zero =>
              dsimp only [sampleEngine] at hpr
              injection hpr with h3
              rw [← h3]
              rfl
          | succ m =>
              dsimp only [sampleEngine] at hpr
              exact Option.noConfusion hpr⟩
    [10, 20, 30] (by decide)
    (by
      intro pr hpr
      dsimp only [sampleEngine] at hpr
      injection hpr with h3
      rw [← h3]
      intro x y hxy
      simp only [reverseProvider, Option.some.injEq] at hxy ⊢
      rw [← hxy, List.reverse_reverse])

end Compression

/-! ## Claim C7 — two-tier write ordering in CacheWithSubcache

`cache_with_subcache.go`: `Set` calls `cs.Subcache.Set` (the front tier)
first and `cs.Cache.Set` (the backing tier) second, while `Delete` calls
`cs.Cache.Delete` first and `cs.Subcache.Delete` second.  Each tier's
operation is modelled as a store update; the pair returned below is
(state after the first tier write — what a crash between the two leaves —,
final state). -/

/-- The two tiers: the fast front subcache and the backing cache. -/
structure TwoTier (V : Type) where
  front : String → Option V
  back : String → Option V

/-- `CacheWithSubcache.Set`: front tier first, then backing tier (program
order of `cs.Subcache.Set`, `cs.Cache.Set`).  Returns the mid (crash) state
and the final state. -/
def TwoTier.set (s : TwoTier V) (key : String) (v : V) : TwoTier V × TwoTier V :=
  let mid := { s with front := fun k => if k = key then some v else s.front k }
  (mid, { mid with back := fun k => if k = key then some v else mid.back k })

/-- `CacheWithSubcache.Delete`: backing tier first, then front tier (program
order of `cs.Cache.Delete`, `cs.Subcache.Delete`). -/
def TwoTier.delete (s : TwoTier V) (key : String) : TwoTier V × TwoTier V :=
  let mid := { s with back := fun k => if k = key then none else s.back k }
  (mid, { mid with front := fun k => if k = key then none else mid.front k })

/-- C7 counterexample: `Set` writes the *front* tier first, so a crash
between the two writes leaves "k" promoted into the front tier while absent
from the backing tier — the very state the claim says is impossible. -/
theorem claim_C7_counterexample :
    (let s0 : TwoTier Nat := ⟨fun _ => none, fun _ => none⟩
     let crash := (s0.set "k" 7).1
     crash.front "k" = some 7 ∧ crash.back "k" = none) :=
  ⟨rfl, rfl⟩

/-- C7 (amended): `Set` applies the operation to the front-tier subcache
first and the backing tier second — so a crash between the two *can* leave a
promoted-but-unbacked entry — while `Delete` applies to the backing tier
first and the front tier second. -/
theorem claim_C7_tier_order (s : TwoTier V) (key : String) (v : V) :
    ((s.set key v).1.front key = some v ∧ (s.set key v).1.back key = s.back key)
      ∧ ((s.set key v).2.front key = some v ∧ (s.set key v).2.back key = some v)
      ∧ ((s.delete key).1.back key = none ∧ (s.delete key).1.front key = s.front key)
      ∧ ((s.delete key).2.back key = none ∧ (s.delete key).2.front key = none) := by
  refine ⟨⟨?_, ?_⟩, ⟨?_, ?_⟩, ⟨?_, ?_⟩, ⟨?_, ?_⟩⟩ <;> simp [TwoTier.set, TwoTier.delete]

/-! ## Claim C8 — GetIndirect redirect chains

`Cache.GetIndirect` recurses on the key the resolver yields, stopping only
when the resolver returns the empty string or the key it was just applied
to.  The Go recursion carries no bound; it is embedded with explicit fuel,
`none` meaning the call has not returned within that much fuel. -/

/-- Fuel-bounded `Cache.GetIndirect` over an abstract `Get` and a
`linkResolver`. -/
def getIndirect (get : String → Except CacheErr (GoPtr V))
    (linkResolver : GoPtr V → String) :
    Nat → String → Option (Except CacheErr (GoPtr V))
  | 0, _ => none
  | fuel + 1, key =>
      match get key with
      | .error e => some (.error e)
      | .ok value =>
          let link := linkResolver value
          if link.length > 0 ∧ link ≠ key then
            getIndirect get linkResolver fuel link
          else some (.ok value)

/-- `GetIndirect(key, resolver)` returns (with some fuel). -/
def GetIndirectTerminates (get : String → Except CacheErr (GoPtr V))
    (linkResolver : GoPtr V → String) (key : String) : Prop :=
  ∃ n r, getIndirect get linkResolver n key = some r

/-- The redirect chain from `key` reaches a stopping point in exactly `n`
hops, ending with outcome `r`: either the fetch errors, or the resolver
returns the empty string or the key itself. -/
def ChainEnd (get : String → Except CacheErr (GoPtr V))
    (linkResolver : GoPtr V → String) :
    Nat → String → Except CacheErr (GoPtr V) → Prop
  | 0, key, r =>
      (∃ e, get key = .error e ∧ r = .error e)
        ∨ (∃ v, get key = .ok v ∧ r = .ok v
            ∧ ¬((linkResolver v).length > 0 ∧ linkResolver v ≠ key))
  | n + 1, key, r =>
      ∃ v, get key = .ok v ∧ ((linkResolver v).length > 0 ∧ linkResolver v ≠ key)
        ∧ ChainEnd get linkResolver n (linkResolver v) r

/-- A two-cycle: "A" stores a value linking to "B", and "B" one linking back
to "A". -/
def cycleGet : String → Except CacheErr (GoPtr Nat) := fun k =>
  if k = "B" then .ok (some (1, 0)) else .ok (some (0, 0))

def cycleResolver : GoPtr Nat → String := fun v =>
  match v with
  | some (0, _) => "B"
  | some (1, _) => "A"
  | _ => ""

theorem cycle_diverges : ∀ n,
    getIndirect cycleGet cycleResolver n "A" = none
      ∧ getIndirect cycleGet cycleResolver n "B" = none := by
  intro n
  induction n with
  | zero => exact ⟨rfl, rfl⟩
  | succ k ih =>
      constructor
      · show getIndirect cycleGet cycleResolver (k + 1) "A" = none
        simp only [getIndirect, cycleGet, cycleResolver]
        norm_num
        exact ih.2
      · show getIndirect cycleGet cycleResolver (k + 1) "B" = none
        simp only [getIndirect, cycleGet, cycleResolver]
        norm_num
        exact ih.1

/-- C8 counterexample: on the two-cycle A→B→A the claim's "terminates
returning the value at the end of the redirect chain" fails — `GetIndirect`
never returns, whatever the fuel. -/
theorem claim_C8_counterexample :
    ¬ GetIndirectTerminates cycleGet cycleResolver "A" := by
  rintro ⟨n, r, h⟩
  rw [(cycle_diverges n).1] at h
  exact Option.noConfusion h

/-- C8 (amended): `GetIndirect` follows the key the resolver yields,
stopping exactly when the resolver returns the empty string or the
immediately preceding key (no other cycle detection exists), and it
terminates with the chain-end outcome whenever the redirect chain reaches
such a stopping point — while any longer cycle recurses forever. -/
theorem claim_C8_chain_end (get : String → Except CacheErr (GoPtr V))
    (linkResolver : GoPtr V → String) (n : Nat) (key : String)
    (r : Except CacheErr (GoPtr V))
    (h : ChainEnd get linkResolver n key r) :
    getIndirect get linkResolver (n + 1) key = some r := by
  induction n generalizing key with
  | zero =>
      rcases h with ⟨e, hget, hr⟩ | ⟨v, hget, hr, hstop⟩
      · simp [getIndirect, hget, hr]
      · simp only [getIndirect, hget, if_neg hstop]
        rw [hr]
  | succ k ih =>
      rcases h with ⟨v, hget, hcont, hrest⟩
      show getIndirect get linkResolver (k + 1 + 1) key = some r
      simp only [getIndirect, hget, if_pos hcont]
      exact ih _ hrest

/-- C8 witness: a one-hop chain "A" → "B" whose end value is returned. -/
theorem claim_C8_witness :
    getIndirect
      (fun k => if k = "B" then .ok (some (1, 6)) else .ok (some (0, 5)))
      (fun v => match v with | some (0, _) => "B" | _ => "")
      2 "A" = some (.ok (some (1, 6))) :=
  claim_C8_chain_end _ _ 1 "A" (.ok (some (1, 6)))
    ⟨some (0, 5), by simp, by decide,
      Or.inr ⟨some (1, 6), by simp, rfl, by decide⟩⟩

/-! ## Claim C6 — the NamedLockManager (MutexMap) entry lifecycle

The cited `MutexMap` (`utils`, the variant with `Purge`): `lock` registers
the caller under the manager mutex (creating the entry with `waiters = 1` or
incrementing), releases the manager mutex, blocks on the entry's RWMutex,
and decrements `waiters` *immediately after acquiring*.  `unlock` takes the
manager mutex, returns early if no entry is registered, deletes the entry
iff the counter is zero *before* performing the actual unlock.  One name is
modelled; entries live in a heap that survives deletion from the registry
(the Go entry object stays referenced by threads that joined it). -/

namespace MutexMap

/-- A `lockEntry`: the `waiters` counter plus the `sync.RWMutex` state. -/
structure LockEntry where
  waiters : Int
  readers : Nat
  writer : Bool
  deriving DecidableEq

/-- A thread's position inside `lock`/`unlock` for the modelled name.
`e` indexes the entry the thread joined in the heap. -/
inductive PC where
  | idle
  | entered (ro : Bool) (e : Nat)
  | acquired (ro : Bool) (e : Nat)
  | holding (ro : Bool) (e : Nat)
  | done
  deriving DecidableEq

/-- Machine state: `registry` is `m.locks[name]` for the one modelled name,
`entries` the entry heap, `pcs` the thread positions. -/
structure MMState where
  registry : Option Nat
  entries : List LockEntry
  pcs : List PC
  deriving DecidableEq

/-- One interleaving step per thread: the mutex-guarded prologue of `lock`
(`enter`), the blocking rlock/lock acquisition (`acquire`), the `dec()`
right after acquiring (`decWaiters`), and the whole mutex-guarded `unlock`
(`release`). -/
inductive MMAction where
  | enter (t : Nat) (ro : Bool)
  | acquire (t : Nat)
  | decWaiters (t : Nat)
  | release (t : Nat)
  deriving DecidableEq

/-- The prologue of `lock`: under the manager mutex, create the entry with
`waiters = 1` if absent, else `inc()`. -/
def stepEnter (s : MMState) (t : Nat) (ro : Bool) : MMState :=
  match s.pcs[t]? with
  | some .idle =>
      match s.registry with
      | none =>
          { registry := some s.entries.length
            entries := s.entries ++ [{ waiters := 1, readers := 0, writer := false }]
            pcs := s.pcs.set t (.entered ro s.entries.length) }
      | some e =>
          match s.entries[e]? with
          | some en =>
              { s with
                entries := s.entries.set e { en with waiters := en.waiters + 1 }
                pcs := s.pcs.set t (.entered ro e) }
          | none => s
  | _ => s

/-- `rlock()`/`lock()` succeeding: a reader needs no writer present, a
writer needs no writer and no readers. -/
def stepAcquire (s : MMState) (t : Nat) : MMState :=
  match s.pcs[t]? with
  | some (.entered ro e) =>
      match s.entries[e]? with
      | some en =>
          if ro then
            if en.writer then s
            else
              { s with
                entries := s.entries.set e { en with readers := en.readers + 1 }
                pcs := s.pcs.set t (.acquired ro e) }
          else
            if en.writer ∨ en.readers ≠ 0 then s
            else
              { s with
                entries := s.entries.set e { en with writer := true }
                pcs := s.pcs.set t (.acquired ro e) }
      | none => s
  | _ => s

/-- The `nameLock.dec()` executed right after the lock is acquired ("I used
the resource, I am not waiting any more"). -/
def stepDec (s : MMState) (t : Nat) : MMState :=
  match s.pcs[t]? with
  | some (.acquired ro e) =>
      match s.entries[e]? with
      | some en =>
          { s with
            entries := s.entries.set e { en with waiters := en.waiters - 1 }
            pcs := s.pcs.set t (.holding ro e) }
      | none => s
  | _ => s

/-- The whole of `unlock`, under the manager mutex: early return when no
entry is registered (without releasing the RWMutex); otherwise operate on the entry
currently registered — delete it from the registry iff its counter reads
zero, then perform the actual runlock/unlock. -/
def stepRelease (s : MMState) (t : Nat) : MMState :=
  match s.pcs[t]? with
  | some (.holding ro _) =>
      match s.registry with
      | none => { s with pcs := s.pcs.set t .done }
      | some e =>
          match s.entries[e]? with
          | some en =>
              { registry := if en.waiters = 0 then none else s.registry
                entries := s.entries.set e
                  (if ro then { en with readers := en.readers - 1 }
                   else { en with writer := false })
                pcs := s.pcs.set t .done }
          | none => { s with pcs := s.pcs.set t .done }
  | _ => s

def step (s : MMState) (a : MMAction) : MMState :=
  match a with
  | .enter t ro => stepEnter s t ro
  | .acquire t => stepAcquire s t
  | .decWaiters t => stepDec s t
  | .release t => stepRelease s t

/-- Run a schedule from a state. -/
def run (s : MMState) (acts : List MMAction) : MMState :=
  acts.foldl step s

/-- `n` threads, nothing registered. -/
def initMM (n : Nat) : MMState :=
  { registry := none, entries := [], pcs := List.replicate n .idle }

/-- Reader A registers, acquires and decrements; reader B does the same
(both now hold the read lock, `waiters = 0`); then A releases. -/
def cexSched : List MMAction :=
  [.enter 0 true, .acquire 0, .decWaiters 0,
   .enter 1 true, .acquire 1, .decWaiters 1,
   .release 0]

/-- C6 counterexample: right before A's release the entry is registered, and
A's release deletes it from the registry (its waiter counter — decremented
at acquisition, not at release — reads zero) while reader B still *holds*
the entry's read lock: an entry is deleted while still referenced by a
holder. -/
theorem claim_C6_counterexample :
    ((run (initMM 2) cexSched.dropLast).registry = some 0
        ∧ (run (initMM 2) cexSched.dropLast).pcs[0]? = some (.holding true 0))
      ∧ (run (initMM 2) cexSched).registry = none
      ∧ (run (initMM 2) cexSched).pcs[1]? = some (.holding true 0) := by
  decide

/-- Does this pc count toward an entry's `waiters`?  The counter covers
threads between their registration (`inc`) and their post-acquisition
`dec()` — not holders. -/
def waiterPC (e : Nat) : PC → Bool
  | .entered _ e' => e' == e
  | .acquired _ e' => e' == e
  | _ => false

/-- Does this pc hold entry `e`'s RWMutex (post-`dec`)? -/
def holdsPC (e : Nat) : PC → Bool
  | .holding _ e' => e' == e
  | _ => false

/-- The number of threads the entry's `waiters` counter must read. -/
def waitersCount (pcs : List PC) (e : Nat) : Nat :=
  pcs.countP (waiterPC e)

/-- No thread is mid-protocol. -/
def Quiescent (s : MMState) : Prop :=
  ∀ pc ∈ s.pcs, pc = .idle ∨ pc = .done

instance (s : MMState) : Decidable (Quiescent s) :=
  inferInstanceAs (Decidable (∀ pc ∈ s.pcs, pc = .idle ∨ pc = .done))

theorem mem_of_lookup {α} {l : List α} {t : Nat} {a : α} (h : l[t]? = some a) :
    a ∈ l := by
  obtain ⟨hlt, rfl⟩ := List.getElem?_eq_some_iff.mp h
  exact l.getElem_mem hlt

theorem countP_set (p : PC → Bool) (l : List PC) (t : Nat) {old : PC} (pc' : PC)
    (hget : l[t]? = some old) :
    (l.set t pc').countP p + (if p old then 1 else 0)
      = l.countP p + (if p pc' then 1 else 0) := by
  induction l generalizing t with
  | nil => simp at hget
  | cons a l ih =>
      cases t with
      | zero =>
          simp only [List.getElem?_cons_zero, Option.some.injEq] at hget
          subst hget
          simp only [List.set_cons_zero, List.countP_cons]
          omega
      | succ k =>
          simp only [List.getElem?_cons_succ] at hget
          simp only [List.set_cons_succ, List.countP_cons]
          have := ih k hget
          omega

/-- The structural invariant of the lock-manager machine: registered and
referenced entry indices are allocated; every entry's `waiters` counter
reads exactly the number of threads between registration and their `dec`;
and a registered entry is referenced by a pre-`dec` thread or a holder. -/
structure MMInv (s : MMState) : Prop where
  regLt : ∀ e, s.registry = some e → e < s.entries.length
  pcLt : ∀ (t : Nat) (ro : Bool) (e : Nat) (pc : PC), s.pcs[t]? = some pc →
      (pc = PC.entered ro e ∨ pc = PC.acquired ro e ∨ pc = PC.holding ro e) →
      e < s.entries.length
  waitersEq : ∀ e en, s.entries[e]? = some en →
      en.waiters = (waitersCount s.pcs e : Int)
  regRef : ∀ e, s.registry = some e →
      waitersCount s.pcs e ≠ 0
        ∨ ∃ (t : Nat) (pc : PC), s.pcs[t]? = some pc ∧ holdsPC e pc = true

theorem mmInv_init (n : Nat) : MMInv (initMM n) := by
  constructor
  · intro e he
    simp [initMM] at he
  · intro t ro e pc hpc hor
    have := mem_of_lookup hpc
    simp only [initMM, List.mem_replicate] at this
    rcases hor with h | h | h <;> (rw [this.2] at h; cases h)
  · intro e en hen
    simp [initMM] at hen
  · intro e he
    simp [initMM] at he

theorem lookup_set_self {α} {l : List α} {t : Nat} {old : α} (v : α)
    (h : l[t]? = some old) : (l.set t v)[t]? = some v := by
  have ht := (List.getElem?_eq_some_iff.mp h).1
  simp [List.getElem?_set_self', ht]

theorem lookup_set_ne {α} {l : List α} {t t' : Nat} (v : α) (h : t ≠ t') :
    (l.set t v)[t']? = l[t']? :=
  List.getElem?_set_ne h

theorem lookup_append_lt {α} {l : List α} {e : Nat} (x : α) (h : e < l.length) :
    (l ++ [x])[e]? = l[e]? := by
  rw [List.getElem?_append]
  simp [h]

/-- No pc counts toward an unallocated entry index. -/
theorem count_eq_zero_of_ge {s : MMState} (h : MMInv s) {e : Nat}
    (he : s.entries.length ≤ e) : waitersCount s.pcs e = 0 := by
  refine List.countP_eq_zero.mpr ?_
  intro pc hmem hcnt
  obtain ⟨t', hl⟩ := List.mem_iff_getElem?.mp hmem
  cases pc with
  | entered ro' e' =>
      simp only [waiterPC, beq_iff_eq] at hcnt
      subst hcnt
      exact absurd (h.pcLt t' ro' e' _ hl (Or.inl rfl)) (by omega)
  | acquired ro' e' =>
      simp only [waiterPC, beq_iff_eq] at hcnt
      subst hcnt
      exact absurd (h.pcLt t' ro' e' _ hl (Or.inr (Or.inl rfl))) (by omega)
  | idle => simp [waiterPC] at hcnt
  | holding ro' e' => simp [waiterPC] at hcnt
  | done => simp [waiterPC] at hcnt

theorem waitersCount_set (e : Nat) (pcs : List PC) (t : Nat) {old : PC}
    (pc' : PC) (hget : pcs[t]? = some old) :
    waitersCount (pcs.set t pc') e + (if waiterPC e old then 1 else 0)
      = waitersCount pcs e + (if waiterPC e pc' then 1 else 0) :=
  countP_set (waiterPC e) pcs t pc' hget

theorem mmInv_enter (s : MMState) (t : Nat) (ro : Bool) (h : MMInv s) :
    MMInv (stepEnter s t ro) := by
  unfold stepEnter
  split
  · rename_i hpc
    split
    · rename_i hreg
      -- fresh entry at index L := s.entries.length, waiters = 1
      have hzero := count_eq_zero_of_ge h (Nat.le_refl s.entries.length)
      have hcnt := waitersCount_set s.entries.length s.pcs t
        (PC.entered ro s.entries.length) hpc
      simp [waiterPC] at hcnt
      constructor
      · intro e he
        simp only [Option.some.injEq] at he
        subst he
        simp
      · intro t' ro' e' pc' hpc' hor
        simp only [List.length_append, List.length_cons, List.length_nil]
        by_cases htt : t = t'
        · subst htt
          rw [lookup_set_self _ hpc] at hpc'
          simp only [Option.some.injEq] at hpc'
          subst hpc'
          rcases hor with h1 | h1 | h1
          · injection h1 with _ h2
            omega
          · exact PC.noConfusion h1
          · exact PC.noConfusion h1
        · rw [lookup_set_ne _ htt] at hpc'
          have := h.pcLt t' ro' e' pc' hpc' hor
          omega
      · intro e en hen
        dsimp only at hen ⊢
        by_cases helt : e < s.entries.length
        · rw [lookup_append_lt _ helt] at hen
          have hold := h.waitersEq e en hen
          have hc := waitersCount_set e s.pcs t (PC.entered ro s.entries.length) hpc
          have hne : s.entries.length ≠ e := by omega
          simp [waiterPC, hne] at hc
          rw [hold, hc]
        · by_cases heq : e = s.entries.length
          · subst heq
            simp only [List.getElem?_concat_length, Option.some.injEq] at hen
            subst hen
            dsimp only
            omega
          · rw [List.getElem?_eq_none (by simp; omega)] at hen
            cases hen
      · intro e he
        dsimp only at he ⊢
        simp only [Option.some.injEq] at he
        subst he
        left
        omega
    · rename_i e0 hreg
      split
      · rename_i en0 hen0
        have he0 : e0 < s.entries.length := (List.getElem?_eq_some_iff.mp hen0).1
        constructor
        · intro e he
          dsimp only at he ⊢
          rw [List.length_set]
          rw [hreg] at he
          simp only [Option.some.injEq] at he
          subst he
          exact h.regLt _ hreg
        · intro t' ro' e' pc' hpc' hor
          dsimp only at hpc' ⊢
          rw [List.length_set]
          by_cases htt : t = t'
          · subst htt
            rw [lookup_set_self _ hpc] at hpc'
            simp only [Option.some.injEq] at hpc'
            subst hpc'
            rcases hor with h1 | h1 | h1
            · injection h1 with _ h2
              omega
            · exact PC.noConfusion h1
            · exact PC.noConfusion h1
          · rw [lookup_set_ne _ htt] at hpc'
            exact h.pcLt t' ro' e' pc' hpc' hor
        · intro e en hen
          dsimp only at hen ⊢
          have hc := waitersCount_set e s.pcs t (PC.entered ro e0) hpc
          by_cases hee : e0 = e
          · subst hee
            rw [lookup_set_self _ hen0] at hen
            simp only [Option.some.injEq] at hen
            subst hen
            have hold := h.waitersEq e0 en0 hen0
            simp [waiterPC] at hc
            dsimp only
            rw [hold]
            omega
          · rw [lookup_set_ne _ hee] at hen
            have hold := h.waitersEq e en hen
            simp [waiterPC, hee] at hc
            rw [hold, hc]
        · intro e he
          dsimp only at he ⊢
          rw [hreg] at he
          simp only [Option.some.injEq] at he
          subst he
          left
          have hc := waitersCount_set e0 s.pcs t (PC.entered ro e0) hpc
          simp [waiterPC] at hc
          omega
      · exact h
  · exact h

/-- Replacing a thread's pc by one with the identical waiter/holder
footprint, while an entry's non-counter fields change, preserves the
invariant (the shape of `stepAcquire`'s two success branches). -/
theorem mmInv_same_footprint (s : MMState) (t e : Nat) (en en' : LockEntry)
    (oldpc newpc : PC)
    (hpc : s.pcs[t]? = some oldpc)
    (hen : s.entries[e]? = some en)
    (hw : en'.waiters = en.waiters)
    (hwfoot : ∀ e', waiterPC e' newpc = waiterPC e' oldpc)
    (hhfoot : ∀ e', holdsPC e' newpc = holdsPC e' oldpc)
    (href : ∀ (ro' : Bool) (e' : Nat),
      (newpc = PC.entered ro' e' ∨ newpc = PC.acquired ro' e' ∨ newpc = PC.holding ro' e') →
      e' < s.entries.length)
    (h : MMInv s) :
    MMInv { registry := s.registry, entries := s.entries.set e en'
            pcs := s.pcs.set t newpc } := by
  have hcount : ∀ e'', waitersCount (s.pcs.set t newpc) e'' = waitersCount s.pcs e'' := by
    intro e''
    have hc := waitersCount_set e'' s.pcs t newpc hpc
    rw [hwfoot e''] at hc
    omega
  constructor
  · intro e'' he''
    dsimp only at he''
    rw [List.length_set]
    exact h.regLt e'' he''
  · intro t' ro' e' pc' hpc' hor
    dsimp only at hpc' ⊢
    rw [List.length_set]
    by_cases htt : t = t'
    · subst htt
      rw [lookup_set_self _ hpc] at hpc'
      simp only [Option.some.injEq] at hpc'
      subst hpc'
      exact href ro' e' hor
    · rw [lookup_set_ne _ htt] at hpc'
      exact h.pcLt t' ro' e' pc' hpc' hor
  · intro e'' en'' hen''
    dsimp only at hen'' ⊢
    rw [hcount e'']
    by_cases hee : e = e''
    · subst hee
      rw [lookup_set_self _ hen] at hen''
      simp only [Option.some.injEq] at hen''
      subst hen''
      rw [hw]
      exact h.waitersEq e en hen
    · rw [lookup_set_ne _ hee] at hen''
      exact h.waitersEq e'' en'' hen''
  · intro e'' he''
    dsimp only at he'' ⊢
    rcases h.regRef e'' he'' with hcnt | ⟨t', pc', hl, hh⟩
    · left
      rw [hcount e'']
      exact hcnt
    · right
      by_cases htt : t = t'
      · subst htt
        rw [hpc] at hl
        simp only [Option.some.injEq] at hl
        subst hl
        exact ⟨t, newpc, lookup_set_self _ hpc, by rw [hhfoot]; exact hh⟩
      · exact ⟨t', pc', by rw [lookup_set_ne _ htt]; exact hl, hh⟩

theorem mmInv_acquire (s : MMState) (t : Nat) (h : MMInv s) :
    MMInv (stepAcquire s t) := by
  unfold stepAcquire
  split
  · rename_i ro e hpc
    split
    · rename_i en hen
      have he : e < s.entries.length := (List.getElem?_eq_some_iff.mp hen).1
      by_cases hro : ro = true
      · subst hro
        simp only [if_true]
        by_cases hwr : en.writer = true
        · rw [if_pos hwr]
          exact h
        · rw [if_neg hwr]
          refine mmInv_same_footprint s t e en _ _ _ hpc hen rfl ?_ ?_ ?_ h
          · intro e'
            simp [waiterPC]
          · intro e'
            simp [holdsPC]
          · intro ro' e' hor
            rcases hor with h1 | h1 | h1
            · exact PC.noConfusion h1
            · injection h1 with _ h2
              omega
            · exact PC.noConfusion h1
      · simp only [Bool.not_eq_true] at hro
        subst hro
        simp only [Bool.false_eq_true, if_false]
        by_cases hblock : (en.writer = true ∨ en.readers ≠ 0)
        · rw [if_pos hblock]
          exact h
        · rw [if_neg hblock]
          refine mmInv_same_footprint s t e en _ _ _ hpc hen rfl ?_ ?_ ?_ h
          · intro e'
            simp [waiterPC]
          · intro e'
            simp [holdsPC]
          · intro ro' e' hor
            rcases hor with h1 | h1 | h1
            · exact PC.noConfusion h1
            · injection h1 with _ h2
              omega
            · exact PC.noConfusion h1
    · exact h
  · exact h

theorem mmInv_dec (s : MMState) (t : Nat) (h : MMInv s) :
    MMInv (stepDec s t) := by
  unfold stepDec
  split
  · rename_i ro e hpc
    split
    · rename_i en hen
      have he : e < s.entries.length := (List.getElem?_eq_some_iff.mp hen).1
      constructor
      · intro e'' he''
        dsimp only at he''
        rw [List.length_set]
        exact h.regLt e'' he''
      · intro t' ro' e' pc' hpc' hor
        dsimp only at hpc' ⊢
        rw [List.length_set]
        by_cases htt : t = t'
        · subst htt
          rw [lookup_set_self _ hpc] at hpc'
          simp only [Option.some.injEq] at hpc'
          subst hpc'
          rcases hor with h1 | h1 | h1
          · exact PC.noConfusion h1
          · exact PC.noConfusion h1
          · injection h1 with _ h2
            omega
        · rw [lookup_set_ne _ htt] at hpc'
          exact h.pcLt t' ro' e' pc' hpc' hor
      · intro e'' en'' hen''
        dsimp only at hen'' ⊢
        have hc := waitersCount_set e'' s.pcs t (PC.holding ro e) hpc
        by_cases hee : e = e''
        · subst hee
          rw [lookup_set_self _ hen] at hen''
          simp only [Option.some.injEq] at hen''
          subst hen''
          have hold := h.waitersEq e en hen
          simp [waiterPC, holdsPC] at hc
          dsimp only
          omega
        · rw [lookup_set_ne _ hee] at hen''
          have hold := h.waitersEq e'' en'' hen''
          have hne : (e == e'') = false := by
            simp only [beq_eq_false_iff_ne, ne_eq]
            exact hee
          simp [waiterPC, holdsPC, hne] at hc
          rw [hold]
          omega
      · intro e'' he''
        dsimp only at he'' ⊢
        by_cases hee : e = e''
        · subst hee
          right
          exact ⟨t, PC.holding ro e, lookup_set_self _ hpc, by simp [holdsPC]⟩
        · rcases h.regRef e'' he'' with hcnt | ⟨t', pc', hl, hh⟩
          · left
            have hc := waitersCount_set e'' s.pcs t (PC.holding ro e) hpc
            have hne : (e == e'') = false := by
              simp only [beq_eq_false_iff_ne, ne_eq]
              exact hee
            simp [waiterPC, holdsPC, hne] at hc
            omega
          · right
            by_cases htt : t = t'
            · subst htt
              rw [hpc] at hl
              simp only [Option.some.injEq] at hl
              subst hl
              simp only [holdsPC] at hh
              cases hh
            · exact ⟨t', pc', by rw [lookup_set_ne _ htt]; exact hl, hh⟩
    · exact h
  · exact h

theorem mmInv_release (s : MMState) (t : Nat) (h : MMInv s) :
    MMInv (stepRelease s t) := by
  unfold stepRelease
  split
  · rename_i ro e0 hpc
    have hcnone : ∀ e'', waitersCount (s.pcs.set t PC.done) e'' = waitersCount s.pcs e'' := by
      intro e''
      have hc := waitersCount_set e'' s.pcs t PC.done hpc
      simp [waiterPC] at hc
      omega
    split
    · rename_i hreg
      constructor
      · intro e'' he''
        dsimp only at he''
        rw [hreg] at he''
        cases he''
      · intro t' ro' e' pc' hpc' hor
        dsimp only at hpc' ⊢
        by_cases htt : t = t'
        · subst htt
          rw [lookup_set_self _ hpc] at hpc'
          simp only [Option.some.injEq] at hpc'
          subst hpc'
          rcases hor with h1 | h1 | h1 <;> exact PC.noConfusion h1
        · rw [lookup_set_ne _ htt] at hpc'
          exact h.pcLt t' ro' e' pc' hpc' hor
      · intro e'' en'' hen''
        dsimp only at hen'' ⊢
        rw [hcnone e'']
        exact h.waitersEq e'' en'' hen''
      · intro e'' he''
        dsimp only at he''
        rw [hreg] at he''
        cases he''
    · rename_i e hreg
      split
      · rename_i en hen
        have he : e < s.entries.length := (List.getElem?_eq_some_iff.mp hen).1
        constructor
        · intro e'' he''
          dsimp only at he''
          rw [List.length_set]
          by_cases hz : en.waiters = 0
          · rw [if_pos hz] at he''
            cases he''
          · rw [if_neg hz, hreg] at he''
            simp only [Option.some.injEq] at he''
            subst he''
            exact h.regLt _ hreg
        · intro t' ro' e' pc' hpc' hor
          dsimp only at hpc' ⊢
          rw [List.length_set]
          by_cases htt : t = t'
          · subst htt
            rw [lookup_set_self _ hpc] at hpc'
            simp only [Option.some.injEq] at hpc'
            subst hpc'
            rcases hor with h1 | h1 | h1 <;> exact PC.noConfusion h1
          · rw [lookup_set_ne _ htt] at hpc'
            exact h.pcLt t' ro' e' pc' hpc' hor
        · intro e'' en'' hen''
          dsimp only at hen'' ⊢
          rw [hcnone e'']
          by_cases hee : e = e''
          · subst hee
            rw [lookup_set_self _ hen] at hen''
            simp only [Option.some.injEq] at hen''
            subst hen''
            have hold := h.waitersEq e en hen
            by_cases hro : ro = true <;> simp [hro] <;> exact hold
          · rw [lookup_set_ne _ hee] at hen''
            exact h.waitersEq e'' en'' hen''
        · intro e'' he''
          dsimp only at he'' ⊢
          by_cases hz : en.waiters = 0
          · rw [if_pos hz] at he''
            cases he''
          · rw [if_neg hz, hreg] at he''
            simp only [Option.some.injEq] at he''
            subst he''
            left
            rw [hcnone e]
            have hold := h.waitersEq e en hen
            intro hc0
            rw [hc0] at hold
            simp at hold
            exact hz hold
      · rename_i hen
        have := h.regLt _ (by assumption)
        rw [List.getElem?_eq_none_iff] at hen
        omega
  · exact h

theorem mmInv_step (s : MMState) (a : MMAction) (h : MMInv s) :
    MMInv (step s a) := by
  cases a with
  | enter t ro => exact mmInv_enter s t ro h
  | acquire t => exact mmInv_acquire s t h
  | decWaiters t => exact mmInv_dec s t h
  | release t => exact mmInv_release s t h

theorem mmInv_run (acts : List MMAction) (s : MMState) (h : MMInv s) :
    MMInv (run s acts) := by
  induction acts generalizing s with
  | nil => exact h
  | cons a acts ih => exact ih (step s a) (mmInv_step s a h)

/-- With no thread mid-protocol, an invariant state registers nothing. -/
theorem registry_none_of_quiescent (s : MMState) (h : MMInv s)
    (hq : Quiescent s) : s.registry = none := by
  cases hreg : s.registry with
  | none => rfl
  | some e =>
      exfalso
      rcases h.regRef e hreg with hcnt | ⟨t, pc, hl, hh⟩
      · obtain ⟨pc, hmem, hp⟩ :=
          List.countP_pos_iff.mp (Nat.pos_of_ne_zero hcnt)
        rcases hq pc hmem with rfl | rfl <;> simp [waiterPC] at hp
      · rcases hq pc (mem_of_lookup hl) with rfl | rfl <;> simp [holdsPC] at hh

/-- C6 (amended): in the `MutexMap` variant cited, a release deletes the
name's entry from the registry iff the entry's waiter counter — which counts
acquirers between registration and their post-acquisition `dec()`, and is
*not* decremented on release — reads exactly zero at that moment; an entry
*can* therefore be deleted while a reader still holds it (the
counterexample); nevertheless once every thread has finished its
lock/unlock protocol, no entry for the name remains in the registry. -/
theorem claim_C6_entry_lifecycle :
    (∀ (n : Nat) (acts : List MMAction),
        Quiescent (run (initMM n) acts) → (run (initMM n) acts).registry = none)
      ∧ (∀ (s : MMState) (t : Nat) (ro : Bool) (e0 e : Nat) (en : LockEntry),
          s.pcs[t]? = some (PC.holding ro e0) → s.registry = some e →
          s.entries[e]? = some en →
          ((stepRelease s t).registry = none ↔ en.waiters = 0)) := by
  constructor
  · intro n acts hq
    exact registry_none_of_quiescent _ (mmInv_run acts _ (mmInv_init n)) hq
  · intro s t ro e0 e en hpc hreg hen
    simp only [stepRelease, hpc, hreg, hen]
    by_cases hz : en.waiters = 0
    · simp [hz]
    · simp [hz, hreg]

/-- The spec's scenario: 20 concurrent readers acquire, a writer queues up,
the readers release, the writer acquires and releases. -/
def sched20 : List MMAction :=
  (List.range 20).flatMap (fun t => [.enter t true, .acquire t, .decWaiters t])
    ++ [.enter 20 false]
    ++ (List.range 20).map (fun t => .release t)
    ++ [.acquire 20, .decWaiters 20, .release 20]

set_option maxRecDepth 10000 in
/-- C6 witness: the 20-readers-then-writer schedule quiesces with an empty
registry, and a concrete release with a zero counter deletes the entry. -/
theorem claim_C6_witness :
    (run (initMM 21) sched20).registry = none
      ∧ ((stepRelease ⟨some 0, [⟨0, 1, false⟩], [PC.holding true 0]⟩ 0).registry = none
          ↔ (⟨0, 1, false⟩ : LockEntry).waiters = 0) :=
  ⟨claim_C6_entry_lifecycle.1 21 sched20 (by decide),
   claim_C6_entry_lifecycle.2 ⟨some 0, [⟨0, 1, false⟩], [PC.holding true 0]⟩
     0 true 0 0 ⟨0, 1, false⟩ rfl rfl rfl⟩

end MutexMap

/-! ## Claim C1 — single-flight GetOrCompute

`Cache.GetOrCompute` (the generic `Cache[T]`): take the key's exclusive
lock; `getNoLock`; on a hit unlock and return.  Otherwise run the evaluator
*while holding the lock*; on success a goroutine enqueues the result
(`setNoLock`, the write-queue overlay) and only then unlocks; on failure
unlock and propagate, caching nothing.  One key is modelled; callers are
threads of an interpreter; the drain worker moving the overlay entry into
the engine runs as its own action.  The evaluator is a fixed outcome `ev`
(deterministic, as one evaluator function is shared by all callers). -/

namespace SingleFlight

deriving instance DecidableEq for Except

/-- A caller's position inside `GetOrCompute`. -/
inductive SFPC (V : Type) where
  | idle
  | wantLock
  | reading
  | evaluating
  | writing (p : GoPtr V)
  | unlocking (r : Except Unit (GoPtr V))
  | finished (r : Except Unit (GoPtr V))
  deriving DecidableEq

/-- The key's state: its exclusive compute lock, its overlay entry, its
engine entry, how often the evaluator ran, and the callers. -/
structure SFState (V : Type) where
  lockHeld : Option Nat
  overlay : Option (GoPtr V)
  engine : Option (GoPtr V)
  evalCount : Nat
  pcs : List (SFPC V)
  deriving DecidableEq

inductive SFAction where
  | call (t : Nat)
  | acquire (t : Nat)
  | read (t : Nat)
  | eval (t : Nat)
  | write (t : Nat)
  | unlock (t : Nat)
  | drain
  deriving DecidableEq

/-- One interpreter step; disabled actions leave the state unchanged.
`read` is `getNoLock`: the overlay first (a nil entry means NotFound, hence
the miss path), then the engine; `eval` runs the evaluator and bumps the
invocation count; `write` is the success goroutine's `setNoLock`; `drain`
is one successful drain-loop cycle moving the overlay entry into the
engine. -/
def sfStep (ev : Except Unit (GoPtr V)) (s : SFState V) (a : SFAction) :
    SFState V :=
  match a with
  | .call t =>
      match s.pcs[t]? with
      | some .idle => { s with pcs := s.pcs.set t .wantLock }
      | _ => s
  | .acquire t =>
      match s.pcs[t]?, s.lockHeld with
      | some .wantLock, none =>
          { s with lockHeld := some t, pcs := s.pcs.set t .reading }
      | _, _ => s
  | .read t =>
      match s.pcs[t]? with
      | some .reading =>
          match s.overlay with
          | some p =>
              if p.isNone then { s with pcs := s.pcs.set t .evaluating }
              else { s with pcs := s.pcs.set t (.unlocking (.ok p)) }
          | none =>
              match s.engine with
              | some p => { s with pcs := s.pcs.set t (.unlocking (.ok p)) }
              | none => { s with pcs := s.pcs.set t .evaluating }
      | _ => s
  | .eval t =>
      match s.pcs[t]? with
      | some .evaluating =>
          match ev with
          | .ok p =>
              { s with evalCount := s.evalCount + 1
                       pcs := s.pcs.set t (.writing p) }
          | .error e =>
              { s with evalCount := s.evalCount + 1
                       pcs := s.pcs.set t (.unlocking (.error e)) }
      | _ => s
  | .write t =>
      match s.pcs[t]? with
      | some (.writing p) =>
          { s with overlay := some p, pcs := s.pcs.set t (.unlocking (.ok p)) }
      | _ => s
  | .unlock t =>
      match s.pcs[t]? with
      | some (.unlocking r) =>
          { s with lockHeld := none, pcs := s.pcs.set t (.finished r) }
      | _ => s
  | .drain =>
      match s.overlay with
      | some p => { s with overlay := none, engine := some p }
      | _ => s

def sfRun (ev : Except Unit (GoPtr V)) (s : SFState V)
    (acts : List SFAction) : SFState V :=
  acts.foldl (sfStep ev) s

/-- `n` callers, empty cache. -/
def sfInit (V : Type) (n : Nat) : SFState V :=
  { lockHeld := none, overlay := none, engine := none, evalCount := 0
    pcs := List.replicate n .idle }

/-- Positions at which a caller holds the key's exclusive lock. -/
def inCrit : SFPC V → Bool
  | .reading => true
  | .evaluating => true
  | .writing _ => true
  | .unlocking _ => true
  | _ => false

/-- Two concurrent callers with a *failing* evaluator: caller 0 runs the
evaluator (which errors, so nothing is cached), unlocks; caller 1 — already
outstanding since before caller 0's evaluation — then misses and runs the
evaluator again. -/
def cexSched : List SFAction :=
  [.call 0, .call 1, .acquire 0, .read 0, .eval 0, .unlock 0,
   .acquire 1, .read 1, .eval 1]

/-- C1 counterexample: with a failing evaluator, two concurrent
`GetOrCompute` callers for the same key invoke the evaluator twice — `at
most once while any call for k is outstanding` does not hold as stated. -/
theorem claim_C1_counterexample :
    (sfRun (V := Nat) (.error ()) (sfInit Nat 2) cexSched).evalCount = 2
      ∧ (sfRun (V := Nat) (.error ())
          (sfInit Nat 2) (cexSched.take 2)).pcs = [.wantLock, .wantLock] := by
  constructor
  · decide
  · decide

/-- Any caller inside the critical region owns the key's lock (so there is
at most one such caller). -/
def LockOwn (s : SFState V) : Prop :=
  ∀ (t : Nat) (pc : SFPC V), s.pcs[t]? = some pc → inCrit pc = true →
    s.lockHeld = some t

theorem lockOwn_step (ev : Except Unit (GoPtr V)) (s : SFState V)
    (a : SFAction) (h : LockOwn s) : LockOwn (sfStep ev s a) := by
  cases a with
  | call t =>
      simp only [sfStep]
      split
      · rename_i hpc
        intro t' pc' hl hcrit
        dsimp only at hl ⊢
        by_cases htt : t = t'
        · subst htt
          rw [MutexMap.lookup_set_self _ hpc] at hl
          simp only [Option.some.injEq] at hl
          subst hl
          cases hcrit
        · rw [MutexMap.lookup_set_ne _ htt] at hl
          exact h t' pc' hl hcrit
      · exact h
  | acquire t =>
      simp only [sfStep]
      split
      · rename_i hpc hlock
        intro t' pc' hl hcrit
        dsimp only at hl ⊢
        by_cases htt : t = t'
        · subst htt
          rfl
        · rw [MutexMap.lookup_set_ne _ htt] at hl
          have := h t' pc' hl hcrit
          rw [hlock] at this
          cases this
      · exact h
  | read t =>
      simp only [sfStep]
      split
      · rename_i hpc
        have hown := h t _ hpc rfl
        split
        · split
          all_goals
            intro t' pc' hl hcrit
            dsimp only at hl ⊢
            by_cases htt : t = t'
            · subst htt; exact hown
            · rw [MutexMap.lookup_set_ne _ htt] at hl
              exact h t' pc' hl hcrit
        · split
          all_goals
            intro t' pc' hl hcrit
            dsimp only at hl ⊢
            by_cases htt : t = t'
            · subst htt; exact hown
            · rw [MutexMap.lookup_set_ne _ htt] at hl
              exact h t' pc' hl hcrit
      · exact h
  | eval t =>
      simp only [sfStep]
      split
      · rename_i hpc
        have hown := h t _ hpc rfl
        split
        all_goals
          intro t' pc' hl hcrit
          dsimp only at hl ⊢
          by_cases htt : t = t'
          · subst htt; exact hown
          · rw [MutexMap.lookup_set_ne _ htt] at hl
            exact h t' pc' hl hcrit
      · exact h
  | write t =>
      simp only [sfStep]
      split
      · rename_i p hpc
        have hown := h t _ hpc rfl
        intro t' pc' hl hcrit
        dsimp only at hl ⊢
        by_cases htt : t = t'
        · subst htt; exact hown
        · rw [MutexMap.lookup_set_ne _ htt] at hl
          exact h t' pc' hl hcrit
      · exact h
  | unlock t =>
      simp only [sfStep]
      split
      · rename_i r hpc
        have hown := h t _ hpc rfl
        intro t' pc' hl hcrit
        dsimp only at hl ⊢
        by_cases htt : t = t'
        · subst htt
          rw [MutexMap.lookup_set_self _ hpc] at hl
          simp only [Option.some.injEq] at hl
          subst hl
          cases hcrit
        · rw [MutexMap.lookup_set_ne _ htt] at hl
          have := h t' pc' hl hcrit
          rw [hown] at this
          simp only [Option.some.injEq] at this
          exact absurd this htt
      · exact h
  | drain =>
      simp only [sfStep]
      split
      · intro t' pc' hl hcrit
        dsimp only at hl ⊢
        exact h t' pc' hl hcrit
      · exact h

/-- The computed value is already recorded for the key (overlay or engine). -/
def Stored (pt : Nat × V) (s : SFState V) : Prop :=
  s.overlay = some (some pt) ∨ s.engine = some (some pt)

/-- The safety invariant for runs whose evaluator returns `ok (some pt)`:
lock ownership, every recorded value is the evaluator's value, the evaluator
ran at most once, a zero count means an empty cache and no caller past the
miss, a count of one means the value is recorded or a caller is about to
record it, a caller at the evaluator saw an empty cache, and every decided
result is the evaluator's value. -/
structure SFInv (pt : Nat × V) (s : SFState V) : Prop where
  own : LockOwn s
  overlayVal : ∀ q, s.overlay = some q → q = some pt
  engineVal : ∀ q, s.engine = some q → q = some pt
  count1 : s.evalCount ≤ 1
  count0 : s.evalCount = 0 → s.overlay = none ∧ s.engine = none ∧
      ∀ (t : Nat) (pc : SFPC V), s.pcs[t]? = some pc →
        (pc = .idle ∨ pc = .wantLock ∨ pc = .reading ∨ pc = .evaluating)
  count1src : s.evalCount = 1 →
      Stored pt s ∨ ∃ t : Nat, s.pcs[t]? = some (.writing (some pt))
  evalEmpty : ∀ t : Nat, s.pcs[t]? = some .evaluating →
      s.overlay = none ∧ s.engine = none
  writingVal : ∀ (t : Nat) (q : GoPtr V), s.pcs[t]? = some (.writing q) →
      q = some pt
  resultsVal : ∀ (t : Nat) (r : Except Unit (GoPtr V)),
      (s.pcs[t]? = some (.unlocking r) ∨ s.pcs[t]? = some (.finished r)) →
      r = .ok (some pt)

/-- Replacing one caller's pc, everything else unchanged, preserves the
invariant under local side conditions on the old and new pc. -/
theorem sfInv_pcOnly (pt : Nat × V) (s : SFState V) (t : Nat)
    (oldpc newpc : SFPC V)
    (hpc : s.pcs[t]? = some oldpc)
    (hcritp : inCrit newpc = true → inCrit oldpc = true)
    (hc0 : s.evalCount = 0 →
      newpc = .idle ∨ newpc = .wantLock ∨ newpc = .reading ∨ newpc = .evaluating)
    (hw : oldpc = SFPC.writing (some pt) → Stored pt s ∨ newpc = .writing (some pt))
    (hee : newpc = .evaluating → s.overlay = none ∧ s.engine = none)
    (hwv : ∀ q, newpc = .writing q → q = some pt)
    (hrv : ∀ r, newpc = .unlocking r ∨ newpc = .finished r → r = .ok (some pt))
    (h : SFInv pt s) :
    SFInv pt { s with pcs := s.pcs.set t newpc } := by
  constructor
  · intro t' pc' hl hcrit
    dsimp only at hl ⊢
    by_cases htt : t = t'
    · subst htt
      rw [MutexMap.lookup_set_self _ hpc] at hl
      simp only [Option.some.injEq] at hl
      subst hl
      exact h.own t oldpc hpc (hcritp hcrit)
    · rw [MutexMap.lookup_set_ne _ htt] at hl
      exact h.own t' pc' hl hcrit
  · exact h.overlayVal
  · exact h.engineVal
  · exact h.count1
  · intro hc
    obtain ⟨h1, h2, h3⟩ := h.count0 hc
    refine ⟨h1, h2, ?_⟩
    intro t' pc' hl
    dsimp only at hl
    by_cases htt : t = t'
    · subst htt
      rw [MutexMap.lookup_set_self _ hpc] at hl
      simp only [Option.some.injEq] at hl
      subst hl
      exact hc0 hc
    · rw [MutexMap.lookup_set_ne _ htt] at hl
      exact h3 t' pc' hl
  · intro hc
    rcases h.count1src hc with h1 | ⟨u, hu⟩
    · exact Or.inl h1
    · by_cases htu : t = u
      · subst htu
        rw [hpc] at hu
        simp only [Option.some.injEq] at hu
        rcases hw hu with h1 | h1
        · exact Or.inl h1
        · refine Or.inr ⟨t, ?_⟩
          dsimp only
          rw [MutexMap.lookup_set_self _ hpc, h1]
      · refine Or.inr ⟨u, ?_⟩
        dsimp only
        rw [MutexMap.lookup_set_ne _ htu]
        exact hu
  · intro t' hl
    dsimp only at hl ⊢
    by_cases htt : t = t'
    · subst htt
      rw [MutexMap.lookup_set_self _ hpc] at hl
      simp only [Option.some.injEq] at hl
      exact hee hl
    · rw [MutexMap.lookup_set_ne _ htt] at hl
      exact h.evalEmpty t' hl
  · intro t' q hl
    dsimp only at hl
    by_cases htt : t = t'
    · subst htt
      rw [MutexMap.lookup_set_self _ hpc] at hl
      simp only [Option.some.injEq] at hl
      exact hwv q hl
    · rw [MutexMap.lookup_set_ne _ htt] at hl
      exact h.writingVal t' q hl
  · intro t' r hl
    dsimp only at hl
    by_cases htt : t = t'
    · subst htt
      rw [MutexMap.lookup_set_self _ hpc] at hl
      rcases hl with hl | hl <;>
        (simp only [Option.some.injEq] at hl; exact hrv r (by rw [hl]; simp))
    · rw [MutexMap.lookup_set_ne _ htt] at hl
      exact h.resultsVal t' r hl

theorem sfInv_step (pt : Nat × V) (s : SFState V) (a : SFAction)
    (h : SFInv pt s) : SFInv pt (sfStep (.ok (some pt)) s a) := by
  cases a with
  | call t =>
      simp only [sfStep]
      split
      · rename_i hpc
        refine sfInv_pcOnly pt s t _ _ hpc ?_ ?_ ?_ ?_ ?_ ?_ h
        · intro hcrit
          cases hcrit
        · intro _
          exact Or.inr (Or.inl rfl)
        · intro hq
          cases hq
        · intro hq
          cases hq
        · intro q hq
          cases hq
        · intro r hr
          rcases hr with hr | hr <;> cases hr
      · exact h
  | acquire t =>
      simp only [sfStep]
      split
      · rename_i hpc hlock
        constructor
        · intro t' pc' hl hcrit
          dsimp only at hl ⊢
          by_cases htt : t = t'
          · subst htt
            rfl
          · rw [MutexMap.lookup_set_ne _ htt] at hl
            have := h.own t' pc' hl hcrit
            rw [hlock] at this
            cases this
        · exact h.overlayVal
        · exact h.engineVal
        · exact h.count1
        · intro hc
          obtain ⟨h1, h2, h3⟩ := h.count0 hc
          refine ⟨h1, h2, ?_⟩
          intro t' pc' hl
          dsimp only at hl
          by_cases htt : t = t'
          · subst htt
            rw [MutexMap.lookup_set_self _ hpc] at hl
            simp only [Option.some.injEq] at hl
            subst hl
            exact Or.inr (Or.inr (Or.inl rfl))
          · rw [MutexMap.lookup_set_ne _ htt] at hl
            exact h3 t' pc' hl
        · intro hc
          rcases h.count1src hc with h1 | ⟨u, hu⟩
          · exact Or.inl h1
          · have htu : t ≠ u := by
              intro hh
              subst hh
              rw [hpc] at hu
              simp at hu
            refine Or.inr ⟨u, ?_⟩
            dsimp only
            rw [MutexMap.lookup_set_ne _ htu]
            exact hu
        · intro t' hl
          dsimp only at hl ⊢
          by_cases htt : t = t'
          · subst htt
            rw [MutexMap.lookup_set_self _ hpc] at hl
            simp at hl
          · rw [MutexMap.lookup_set_ne _ htt] at hl
            exact h.evalEmpty t' hl
        · intro t' q hl
          dsimp only at hl
          by_cases htt : t = t'
          · subst htt
            rw [MutexMap.lookup_set_self _ hpc] at hl
            simp at hl
          · rw [MutexMap.lookup_set_ne _ htt] at hl
            exact h.writingVal t' q hl
        · intro t' r hl
          dsimp only at hl
          by_cases htt : t = t'
          · subst htt
            rw [MutexMap.lookup_set_self _ hpc] at hl
            rcases hl with hl | hl <;> simp at hl
          · rw [MutexMap.lookup_set_ne _ htt] at hl
            exact h.resultsVal t' r hl
      · exact h
  | read t =>
      simp only [sfStep]
      split
      · rename_i hpc
        split
        · rename_i p hov
          have hp := h.overlayVal p hov
          subst hp
          split
          · rename_i hnil
            simp at hnil
          · rename_i hnil
            refine sfInv_pcOnly pt s t _ _ hpc ?_ ?_ ?_ ?_ ?_ ?_ h
            · intro _
              rfl
            · intro hc
              have := (h.count0 hc).1
              rw [this] at hov
              cases hov
            · intro hq
              cases hq
            · intro hq
              cases hq
            · intro q hq
              cases hq
            · intro r hr
              rcases hr with hr | hr
              · injection hr with hr2
                rw [← hr2]
              · cases hr
        · rename_i hov
          split
          · rename_i p heng
            have hp := h.engineVal p heng
            subst hp
            refine sfInv_pcOnly pt s t _ _ hpc ?_ ?_ ?_ ?_ ?_ ?_ h
            · intro _
              rfl
            · intro hc
              have := (h.count0 hc).2.1
              rw [this] at heng
              cases heng
            · intro hq
              cases hq
            · intro hq
              cases hq
            · intro q hq
              cases hq
            · intro r hr
              rcases hr with hr | hr
              · injection hr with hr2
                rw [← hr2]
              · cases hr
          · rename_i heng
            refine sfInv_pcOnly pt s t _ _ hpc ?_ ?_ ?_ ?_ ?_ ?_ h
            · intro _
              rfl
            · intro _
              exact Or.inr (Or.inr (Or.inr rfl))
            · intro hq
              cases hq
            · intro _
              exact ⟨hov, heng⟩
            · intro q hq
              cases hq
            · intro r hr
              rcases hr with hr | hr <;> cases hr
      · exact h
  | eval t =>
      simp only [sfStep]
      split
      · rename_i hpc
        have hempty := h.evalEmpty t hpc
        have hc0 : s.evalCount = 0 := by
          rcases Nat.lt_or_ge s.evalCount 1 with hlt | hge
          · omega
          · exfalso
            have hc1 : s.evalCount = 1 := by
              have := h.count1
              omega
            rcases h.count1src hc1 with h1 | ⟨u, hu⟩
            · rcases h1 with h1 | h1
              · rw [hempty.1] at h1
                cases h1
              · rw [hempty.2] at h1
                cases h1
            · have h1 := h.own u _ hu rfl
              have h2 := h.own t _ hpc rfl
              rw [h1] at h2
              simp only [Option.some.injEq] at h2
              subst h2
              rw [hpc] at hu
              simp at hu
        constructor
        · intro t' pc' hl hcrit
          dsimp only at hl ⊢
          by_cases htt : t = t'
          · subst htt
            rw [MutexMap.lookup_set_self _ hpc] at hl
            simp only [Option.some.injEq] at hl
            subst hl
            exact h.own t _ hpc rfl
          · rw [MutexMap.lookup_set_ne _ htt] at hl
            exact h.own t' pc' hl hcrit
        · exact h.overlayVal
        · exact h.engineVal
        · dsimp only
          omega
        · intro hc
          dsimp only at hc
          omega
        · intro _
          refine Or.inr ⟨t, ?_⟩
          dsimp only
          rw [MutexMap.lookup_set_self _ hpc]
        · intro t' hl
          dsimp only at hl ⊢
          by_cases htt : t = t'
          · subst htt
            rw [MutexMap.lookup_set_self _ hpc] at hl
            simp at hl
          · rw [MutexMap.lookup_set_ne _ htt] at hl
            exact h.evalEmpty t' hl
        · intro t' q hl
          dsimp only at hl
          by_cases htt : t = t'
          · subst htt
            rw [MutexMap.lookup_set_self _ hpc] at hl
            simp only [Option.some.injEq] at hl
            injection hl with hl2
            rw [← hl2]
          · rw [MutexMap.lookup_set_ne _ htt] at hl
            exact h.writingVal t' q hl
        · intro t' r hl
          dsimp only at hl
          by_cases htt : t = t'
          · subst htt
            rw [MutexMap.lookup_set_self _ hpc] at hl
            rcases hl with hl | hl <;> simp at hl
          · rw [MutexMap.lookup_set_ne _ htt] at hl
            exact h.resultsVal t' r hl
      · exact h
  | write t =>
      simp only [sfStep]
      split
      · rename_i p hpc
        have hq := h.writingVal t p hpc
        subst hq
        constructor
        · intro t' pc' hl hcrit
          dsimp only at hl ⊢
          by_cases htt : t = t'
          · subst htt
            rw [MutexMap.lookup_set_self _ hpc] at hl
            simp only [Option.some.injEq] at hl
            subst hl
            exact h.own t _ hpc rfl
          · rw [MutexMap.lookup_set_ne _ htt] at hl
            exact h.own t' pc' hl hcrit
        · intro q hov
          dsimp only at hov
          simp only [Option.some.injEq] at hov
          rw [← hov]
        · exact h.engineVal
        · exact h.count1
        · intro hc
          exfalso
          have := (h.count0 hc).2.2 t _ hpc
          rcases this with h1 | h1 | h1 | h1 <;> cases h1
        · intro _
          exact Or.inl (Or.inl rfl)
        · intro t' hl
          dsimp only at hl ⊢
          by_cases htt : t = t'
          · subst htt
            rw [MutexMap.lookup_set_self _ hpc] at hl
            simp at hl
          · exfalso
            rw [MutexMap.lookup_set_ne _ htt] at hl
            have h1 := h.own t' _ hl rfl
            have h2 := h.own t _ hpc rfl
            rw [h1] at h2
            simp only [Option.some.injEq] at h2
            exact htt h2.symm
        · intro t' q hl
          dsimp only at hl
          by_cases htt : t = t'
          · subst htt
            rw [MutexMap.lookup_set_self _ hpc] at hl
            simp at hl
          · rw [MutexMap.lookup_set_ne _ htt] at hl
            exact h.writingVal t' q hl
        · intro t' r hl
          dsimp only at hl
          by_cases htt : t = t'
          · subst htt
            rw [MutexMap.lookup_set_self _ hpc] at hl
            rcases hl with hl | hl
            · simp only [Option.some.injEq] at hl
              injection hl with hl2
              rw [← hl2]
            · simp at hl
          · rw [MutexMap.lookup_set_ne _ htt] at hl
            exact h.resultsVal t' r hl
      · exact h
  | unlock t =>
      simp only [sfStep]
      split
      · rename_i r hpc
        constructor
        · intro t' pc' hl hcrit
          dsimp only at hl ⊢
          by_cases htt : t = t'
          · subst htt
            rw [MutexMap.lookup_set_self _ hpc] at hl
            simp only [Option.some.injEq] at hl
            subst hl
            cases hcrit
          · exfalso
            rw [MutexMap.lookup_set_ne _ htt] at hl
            have h1 := h.own t' pc' hl hcrit
            have h2 := h.own t _ hpc rfl
            rw [h1] at h2
            simp only [Option.some.injEq] at h2
            exact htt h2.symm
        · exact h.overlayVal
        · exact h.engineVal
        · exact h.count1
        · intro hc
          exfalso
          have := (h.count0 hc).2.2 t _ hpc
          rcases this with h1 | h1 | h1 | h1 <;> cases h1
        · intro hc
          rcases h.count1src hc with h1 | ⟨u, hu⟩
          · exact Or.inl h1
          · have htu : t ≠ u := by
              intro hh
              subst hh
              rw [hpc] at hu
              simp at hu
            refine Or.inr ⟨u, ?_⟩
            dsimp only
            rw [MutexMap.lookup_set_ne _ htu]
            exact hu
        · intro t' hl
          dsimp only at hl ⊢
          by_cases htt : t = t'
          · subst htt
            rw [MutexMap.lookup_set_self _ hpc] at hl
            simp at hl
          · rw [MutexMap.lookup_set_ne _ htt] at hl
            exact h.evalEmpty t' hl
        · intro t' q hl
          dsimp only at hl
          by_cases htt : t = t'
          · subst htt
            rw [MutexMap.lookup_set_self _ hpc] at hl
            simp at hl
          · rw [MutexMap.lookup_set_ne _ htt] at hl
            exact h.writingVal t' q hl
        · intro t' r' hl
          dsimp only at hl
          by_cases htt : t = t'
          · subst htt
            rw [MutexMap.lookup_set_self _ hpc] at hl
            rcases hl with hl | hl
            · simp at hl
            · simp only [Option.some.injEq] at hl
              injection hl with hl2
              rw [← hl2]
              exact h.resultsVal t r (Or.inl hpc)
          · rw [MutexMap.lookup_set_ne _ htt] at hl
            exact h.resultsVal t' r' hl
      · exact h
  | drain =>
      simp only [sfStep]
      split
      · rename_i p hov
        have hp := h.overlayVal p hov
        subst hp
        constructor
        · intro t' pc' hl hcrit
          dsimp only at hl ⊢
          exact h.own t' pc' hl hcrit
        · intro q hq
          dsimp only at hq
          cases hq
        · intro q hq
          dsimp only at hq
          simp only [Option.some.injEq] at hq
          rw [← hq]
        · exact h.count1
        · intro hc
          exfalso
          have := (h.count0 hc).1
          rw [this] at hov
          cases hov
        · intro _
          exact Or.inl (Or.inr rfl)
        · intro t' hl
          dsimp only at hl ⊢
          exfalso
          have := (h.evalEmpty t' hl).1
          rw [this] at hov
          cases hov
        · intro t' q hl
          dsimp only at hl
          exact h.writingVal t' q hl
        · intro t' r hl
          dsimp only at hl
          exact h.resultsVal t' r hl
      · exact h

theorem lockOwn_init (V : Type) (n : Nat) : LockOwn (sfInit V n) := by
  intro t pc hl hcrit
  have := MutexMap.mem_of_lookup hl
  simp only [sfInit, List.mem_replicate] at this
  rw [this.2] at hcrit
  cases hcrit

theorem lockOwn_run (V : Type) (ev : Except Unit (GoPtr V)) (n : Nat)
    (acts : List SFAction) : LockOwn (sfRun ev (sfInit V n) acts) := by
  suffices hgen : ∀ (s : SFState V), LockOwn s → LockOwn (sfRun ev s acts) from
    hgen _ (lockOwn_init V n)
  induction acts with
  | nil => exact fun s hs => hs
  | cons a acts ih => exact fun s hs => ih (sfStep ev s a) (lockOwn_step ev s a hs)

theorem sfInv_init (pt : Nat × V) (n : Nat) : SFInv pt (sfInit V n) := by
  constructor
  · exact lockOwn_init V n
  · intro q hq
    cases hq
  · intro q hq
    cases hq
  · exact Nat.zero_le 1
  · intro _
    refine ⟨rfl, rfl, ?_⟩
    intro t pc hl
    have := MutexMap.mem_of_lookup hl
    simp only [sfInit, List.mem_replicate] at this
    exact Or.inl this.2
  · intro hc
    cases hc
  · intro t hl
    have := MutexMap.mem_of_lookup hl
    simp only [sfInit, List.mem_replicate] at this
    cases this.2
  · intro t q hl
    have := MutexMap.mem_of_lookup hl
    simp only [sfInit, List.mem_replicate] at this
    cases this.2
  · intro t r hl
    rcases hl with hl | hl
    · have hm := MutexMap.mem_of_lookup hl
      simp only [sfInit, List.mem_replicate] at hm
      cases hm.2
    · have hm := MutexMap.mem_of_lookup hl
      simp only [sfInit, List.mem_replicate] at hm
      cases hm.2

theorem sfInv_run (pt : Nat × V) (n : Nat) (acts : List SFAction) :
    SFInv pt (sfRun (.ok (some pt)) (sfInit V n) acts) := by
  suffices hgen : ∀ (s : SFState V), SFInv pt s →
      SFInv pt (sfRun (.ok (some pt)) s acts) from
    hgen _ (sfInv_init pt n)
  induction acts with
  | nil => exact fun s hs => hs
  | cons a acts ih => exact fun s hs => ih (sfStep _ s a) (sfInv_step pt s a hs)

/-- C1 (amended): for every evaluator outcome, at most one caller is ever
inside the critical region — no two evaluator runs for the key are ever
concurrent (the invoking caller runs it while holding the key's exclusive
lock); and when the evaluator returns a non-nil value without error, in
every run from an empty cache the evaluator is invoked at most once overall
and every caller that completes observes exactly the evaluator's value.  (A
failing — or nil-returning — evaluator caches nothing and is re-invoked by
the next waiting caller: the counterexample.) -/
theorem claim_C1_single_flight :
    (∀ (V : Type) (ev : Except Unit (GoPtr V)) (n : Nat) (acts : List SFAction)
        (t u : Nat) (pct pcu : SFPC V),
        (sfRun ev (sfInit V n) acts).pcs[t]? = some pct →
        (sfRun ev (sfInit V n) acts).pcs[u]? = some pcu →
        inCrit pct = true → inCrit pcu = true → t = u)
      ∧ (∀ (V : Type) (i : Nat) (x : V) (n : Nat) (acts : List SFAction),
          (sfRun (.ok (some (i, x))) (sfInit V n) acts).evalCount ≤ 1
            ∧ ∀ (t : Nat) (r : Except Unit (GoPtr V)),
                (sfRun (.ok (some (i, x))) (sfInit V n) acts).pcs[t]?
                    = some (.finished r) →
                r = .ok (some (i, x))) := by
  constructor
  · intro V ev n acts t u pct pcu hlt hlu hct hcu
    have h1 := lockOwn_run V ev n acts t pct hlt hct
    have h2 := lockOwn_run V ev n acts u pcu hlu hcu
    rw [h1] at h2
    simpa using h2
  · intro V i x n acts
    have hinv := sfInv_run (V := V) (i, x) n acts
    exact ⟨hinv.count1, fun t r hl => hinv.resultsVal t r (Or.inr hl)⟩

/-- An interleaved success run: caller 0 computes and records the value,
the drain moves it to the engine, caller 1 then hits. -/
def wSched : List SFAction :=
  [.call 0, .call 1, .acquire 0, .read 0, .eval 0, .write 0, .unlock 0,
   .acquire 1, .read 1, .unlock 1, .drain]

/-- C1 witness: the single-flight guarantee on a concrete two-caller
interleaving with evaluator value 42. -/
theorem claim_C1_witness :
    (sfRun (.ok (some (0, 42))) (sfInit Nat 2) wSched).evalCount ≤ 1
      ∧ ∀ (t : Nat) (r : Except Unit (GoPtr Nat)),
          (sfRun (.ok (some (0, 42))) (sfInit Nat 2) wSched).pcs[t]?
              = some (.finished r) →
          r = .ok (some (0, 42)) :=
  claim_C1_single_flight.2 Nat 0 42 2 wSched

end SingleFlight

end Cachier
